/-
Verification of the quick_expenses repository's category / analytics /
date-range / money-formatting logic against its specification.

The TypeScript source is shallowly embedded in Lean:
  * JS strings are Lean `String` (a list of unicode scalar values);
    `String.prototype.toLowerCase` is modelled by mapping `Char.toLower`
    (ASCII case map, which covers every default category name);
    the regex whitespace class `\s` is modelled by `Char.isWhitespace`.
  * SQLite `REAL` amounts are modelled as exact rationals `ℚ`.
  * SQLite `TEXT` comparison (used by `date >= ? AND date < ?`) is
    byte-wise comparison of UTF-8, which coincides with lexicographic
    comparison of unicode scalar values, embedded as `strLtS` / `strLeS`.
  * JS `Date` values are modelled at millisecond resolution by a pair of
    a local calendar day number (days since 1970-01-01) and the
    milliseconds elapsed since local midnight; all date functions in the
    repository factor through this data.  Timestamp comparison is the
    lexicographic order on that pair (fixed-offset local clock; the
    repository's date arithmetic is calendar arithmetic, so DST does not
    move any calendar-day boundary here).
  * JS numbers appearing where non-finite values matter are modelled by
    `JSNum` (a rational, or NaN / ±Infinity).
  * Fallible storage reads are `Option`; thrown exceptions are the
    `Except`/`Option` error cases.
-/
import Mathlib

set_option maxHeartbeats 1000000

/-! ## String primitives -/

/-- Lexicographic comparison of character lists; embeds both JS string
comparison and SQLite BINARY TEXT comparison (byte-wise `memcmp` on UTF-8,
which agrees with scalar-value lexicographic order). -/
def strLtb : List Char → List Char → Bool
  | [], [] => false
  | [], _ :: _ => true
  | _ :: _, [] => false
  | a :: as, b :: bs => if a < b then true else if b < a then false else strLtb as bs

/-- `a < b` on strings, via `strLtb`. -/
def strLtS (a b : String) : Bool := strLtb a.data b.data

/-- `a <= b` on strings. -/
def strLeS (a b : String) : Bool := strLtb a.data b.data || a == b

/-- Model of `String.prototype.toLowerCase` (ASCII case map). -/
def strToLower (s : String) : String := String.mk (s.data.map Char.toLower)

/-- Drop leading whitespace, as the left half of `String.prototype.trim`. -/
def dropLeadingWs : List Char → List Char
  | [] => []
  | c :: rest => if c.isWhitespace then dropLeadingWs rest else c :: rest

/-- Drop trailing whitespace, as the right half of `String.prototype.trim`. -/
def trimTrailingWs : List Char → List Char
  | [] => []
  | c :: rest =>
    let r := trimTrailingWs rest
    if r = [] ∧ c.isWhitespace then [] else c :: r

/-- Model of `.replace(/\s+/g, ' ')`: every maximal run of whitespace
becomes a single space.  The boolean flag records whether the previous
character belonged to a whitespace run. -/
def collapseWs : List Char → Bool → List Char
  | [], _ => []
  | c :: rest, prevWs =>
    if c.isWhitespace then
      if prevWs then collapseWs rest true
      else ' ' :: collapseWs rest true
    else c :: collapseWs rest false

/-- The head character exists and is not whitespace. -/
def headNotWs : List Char → Bool
  | [] => false
  | c :: _ => !c.isWhitespace

/-- The final character, if any, is not whitespace. -/
def noTrailWs : List Char → Bool
  | [] => true
  | [c] => !c.isWhitespace
  | _ :: rest => noTrailWs rest

/-- Every whitespace character is a single `' '` immediately followed by a
non-whitespace character. -/
def canonAux : List Char → Bool
  | [] => true
  | c :: rest => (if c.isWhitespace then c == ' ' && headNotWs rest else true) && canonAux rest

/-! ## Category name normalization (src/db/categories: normalizeCategoryName) -/

/-- `normalizeCategoryName(name) = name.trim().replace(/\s+/g, ' ')`. -/
def normalizeCategoryName (name : String) : String :=
  String.mk (collapseWs (trimTrailingWs (dropLeadingWs name.data)) false)

/-- The fixed default category list (src/constants/categories.ts). -/
def DEFAULT_CATEGORIES : List String :=
  ["Groceries", "Transport", "Cafe", "Restaurants", "Home", "Health", "Pharmacy",
   "Entertainment", "Subscriptions", "Clothing", "Gifts", "Education", "Travel",
   "Sports", "Beauty", "Kids", "Taxi", "Mobile", "Other"]

/-- Loop of `dedupeCaseInsensitive`; `seen` is the set of lower-cased keys
already emitted (the JS `Set<string>`), kept as a list. -/
def dedupeAux (seen : List String) : List String → List String
  | [] => []
  | v :: rest =>
    let normalized := normalizeCategoryName v
    if normalized = "" then dedupeAux seen rest
    else
      let key := strToLower normalized
      if key ∈ seen then dedupeAux seen rest
      else normalized :: dedupeAux (key :: seen) rest

/-- `dedupeCaseInsensitive(values)` from src/db/categories. -/
def dedupeCaseInsensitive (values : List String) : List String := dedupeAux [] values

/-- `MAX_RECENT_CATEGORIES`. -/
def MAX_RECENT_CATEGORIES : Nat := 5

/-- `getRecentCategories` restricted to an already-parsed string array:
`dedupeCaseInsensitive(parsed).slice(0, MAX_RECENT_CATEGORIES)`.  The JSON
round-trip `JSON.parse(JSON.stringify(l))` on an array of strings is the
identity, so the stored value is modelled by the list itself here. -/
def readRecentFromList (stored : List String) : List String :=
  (dedupeCaseInsensitive stored).take MAX_RECENT_CATEGORIES

/-- `recordRecentCategory(name)`: the stored recent list before the call is
`stored`, the returned list is the one persisted by the call (the call is a
no-op, leaving `stored` untouched, when the normalized name is empty). -/
def recordRecentCategory (stored : List String) (name : String) : List String :=
  let normalizedName := normalizeCategoryName name
  if normalizedName = "" then stored
  else
    let currentRecent := readRecentFromList stored
    let normalizedNameKey := strToLower normalizedName
    (normalizedName ::
      currentRecent.filter (fun v => strToLower v != normalizedNameKey)).take
      MAX_RECENT_CATEGORIES

/-- A row of the `custom_categories` table.  `id` models the monotone
integer primary key assigned on insertion. -/
structure CustomCategoryRow where
  id : Int
  name : String
  created_at : String
deriving DecidableEq

/-- `ORDER BY datetime(created_at) DESC, id DESC`.  `created_at` values are
ISO timestamps, whose lexicographic order agrees with the order of their
`datetime()` normalizations. -/
def customCategoryOrder (a b : CustomCategoryRow) : Prop :=
  strLtS b.created_at a.created_at = true ∨
    (a.created_at = b.created_at ∧ b.id ≤ a.id)

instance : DecidableRel customCategoryOrder := fun a b => by
  unfold customCategoryOrder; infer_instance

/-- `getCustomCategories()`: select names newest-first, normalize, drop
empties. -/
def getCustomCategories (rows : List CustomCategoryRow) : List String :=
  ((List.insertionSort customCategoryOrder rows).map
      (fun r => normalizeCategoryName r.name)).filter (fun v => 0 < v.length)

/-- The next auto-assigned primary key (any value strictly larger than all
existing ids would do; no claim depends on it). -/
def nextCustomCategoryId (rows : List CustomCategoryRow) : Int :=
  (rows.map CustomCategoryRow.id).foldr max 0 + 1

/-- `addCustomCategory(name)`.  The database state is the row list `rows`;
`nowISO` is `new Date().toISOString()` at the call.  A thrown `Error` is the
`.error` case, carrying the message. -/
def addCustomCategory (rows : List CustomCategoryRow) (nowISO : String)
    (name : String) : Except String (String × List CustomCategoryRow) :=
  let normalizedName := normalizeCategoryName name
  if normalizedName = "" then .error "Category name is required"
  else
    let normalizedNameKey := strToLower normalizedName
    if DEFAULT_CATEGORIES.any (fun v => strToLower v == normalizedNameKey) then
      .error "This default category already exists"
    else if (getCustomCategories rows).any (fun v => strToLower v == normalizedNameKey) then
      .error "This custom category already exists"
    else
      .ok (normalizedName,
        rows ++ [⟨nextCustomCategoryId rows, normalizedName, nowISO⟩])

/-- Invariant of lists produced by `dedupeCaseInsensitive`: every entry is a
nonempty fixed point of normalization and the lower-cased keys are pairwise
distinct. -/
def CanonKeyed (l : List String) : Prop :=
  (∀ x ∈ l, normalizeCategoryName x = x ∧ x ≠ "") ∧
    l.Pairwise (fun a b => strToLower a ≠ strToLower b)

/-! ## Analytics (src/db/analytics) -/

/-- Number of binary digits of `n` (`⌊log₂ n⌋ + 1` for `n > 0`, and `0` for
`n = 0`), computed with explicit fuel so that the recursion is structural
and kernel-reducible.  The fuel at the wrapper below covers every mantissa
an aligned binary64 addition can produce. -/
def bitLenAux : Nat → Nat → Nat
  | 0, _ => 0
  | fuel + 1, n => if n = 0 then 0 else bitLenAux fuel (n / 2) + 1

/-- Bit length of a natural number (exact for `n < 2 ^ 4096`). -/
def bitLength (n : Nat) : Nat := bitLenAux 4096 n

/-- Round `n / 2 ^ k` to the nearest integer, ties to even (the IEEE-754
default rounding direction). -/
def roundNearestEven (n : Int) (k : Nat) : Int :=
  let d : Int := 2 ^ k
  let q := n.fdiv d
  let r := n - q * d
  if 2 * r < d then q
  else if 2 * r > d then q + 1
  else if q % 2 = 0 then q else q + 1

/-- A finite IEEE-754 binary64 value (the representation SQLite uses for
`REAL` columns and JavaScript for all numbers), written as an integer
mantissa times a power of two: the value is `m * 2 ^ e`.  Canonical values
have `|m| < 2 ^ 53`.  Overflow to infinity and the subnormal loss of
precision near `2 ^ (-1074)` are out of range for sums of stored expense
amounts and are not modelled. -/
structure F64 where
  m : Int
  e : Int
deriving DecidableEq

/-- The exact rational value denoted by a binary64 record. -/
def toRat (f : F64) : ℚ := (f.m : ℚ) * (2 : ℚ) ^ f.e

/-- Round an exact value `m * 2 ^ e` to 53 significant bits, nearest, ties
to even — the binary64 rounding of an exact intermediate result. -/
def fpNorm (m : Int) (e : Int) : F64 :=
  if m = 0 then ⟨0, 0⟩
  else
    let bits := bitLength m.natAbs
    if bits ≤ 53 then ⟨m, e⟩
    else
      let k := bits - 53
      let sgn : Int := if m < 0 then -1 else 1
      let m' := sgn * roundNearestEven (m.natAbs : Int) k
      if m'.natAbs = 2 ^ 53 then ⟨sgn * 2 ^ 52, e + (k : Int) + 1⟩
      else ⟨m', e + (k : Int)⟩

/-- Binary64 addition: the exact sum (mantissas aligned to the smaller
exponent) rounded to 53 bits.  This is the correctly-rounded `+` of SQLite's
`SUM` over a `REAL` column and of JavaScript number arithmetic. -/
def fpAdd (a b : F64) : F64 :=
  let e := min a.e b.e
  let ma := a.m * 2 ^ (a.e - e).toNat
  let mb := b.m * 2 ^ (b.e - e).toNat
  fpNorm (ma + mb) e

/-- Value-order comparison of two binary64 records (`ORDER BY total DESC`
compares the stored `REAL` values). -/
def fpLeb (a b : F64) : Bool :=
  let e := min a.e b.e
  decide (a.m * 2 ^ (a.e - e).toNat ≤ b.m * 2 ^ (b.e - e).toNat)

/-- A row of the `transactions` table, restricted to the columns the
aggregation queries read.  `amount` is a SQLite `REAL`, that is, a binary64
floating-point value. -/
structure Tx where
  date : String
  category : String
  amount : F64
deriving DecidableEq

/-- The `WHERE date >= ? AND date < ?` filter. -/
def txInRange (fromISO toISO : String) (t : Tx) : Bool :=
  strLeS fromISO t.date && strLtS t.date toISO

/-- `SUM(amount)` over a list of rows: iterated binary64 addition of the
stored doubles in row order, starting from `0` (with `COALESCE(_, 0)`: the
empty sum is `0`). -/
def sumAmounts (l : List Tx) : F64 :=
  l.foldl (fun acc t => fpAdd acc t.amount) ⟨0, 0⟩

/-- `getCategoryTotals(fromISO, toISO)`: filter to the range, group by
category, sum each group, order by total descending (`insertionSort` is a
stable sort; SQLite leaves tie order unspecified). -/
def getCategoryTotals (txs : List Tx) (fromISO toISO : String) : List (String × F64) :=
  let filtered := txs.filter (txInRange fromISO toISO)
  let keys := (filtered.map Tx.category).dedup
  let rows := keys.map (fun c => (c, sumAmounts (filtered.filter (fun t => t.category == c))))
  List.insertionSort (fun a b => fpLeb b.2 a.2 = true) rows

/-- `getTotal(fromISO, toISO)`. -/
def getTotal (txs : List Tx) (fromISO toISO : String) : F64 :=
  sumAmounts (txs.filter (txInRange fromISO toISO))

/-- Three stored rows inside the March 2024 range whose amounts are the
binary64 values of the JavaScript literals `0.1`, `0.2` and `0.3`
(`0.1 = 3602879701896397 * 2 ^ (-55)`, `0.2 = 3602879701896397 * 2 ^ (-54)`,
`0.3 = 5404319552844595 * 2 ^ (-54)`): one row of `0.1` in category `"A"`
and rows of `0.2` and `0.3` in category `"B"`. -/
def floatCounterexampleTxs : List Tx :=
  [⟨"2024-03-10", "A", ⟨3602879701896397, -55⟩⟩,
   ⟨"2024-03-11", "B", ⟨3602879701896397, -54⟩⟩,
   ⟨"2024-03-12", "B", ⟨5404319552844595, -54⟩⟩]

/-- Two stored rows with integer amounts (`10` and `20`), on which every
addition performed by the aggregation queries is exact. -/
def exactWitnessTxs : List Tx :=
  [⟨"2024-03-01", "Groceries", ⟨10, 0⟩⟩, ⟨"2024-03-15", "Transport", ⟨20, 0⟩⟩]

/-! ## Dates (src/utils/dateRanges.ts) -/

/-- A JS `Date` at the resolution the repository uses: `day` is the local
calendar day number (days since 1970-01-01) and `msec` the milliseconds
since local midnight (`0 ≤ msec < 86400000` for values produced by the JS
runtime). -/
structure JSDate where
  day : Int
  msec : Int
deriving DecidableEq

/-- The local timestamp; JS `Date` comparison compares timestamps. -/
def tsOf (d : JSDate) : Int := d.day * 86400000 + d.msec

/-- `startOfDay(date) = new Date(getFullYear(), getMonth(), getDate())`:
drop the time-of-day component. -/
def startOfDay (d : JSDate) : JSDate := ⟨d.day, 0⟩

/-- `addDays`: `setDate(getDate() + days)` is local calendar-day addition
and keeps the clock time. -/
def addDays (d : JSDate) (days : Int) : JSDate := ⟨d.day + days, d.msec⟩

/-- JS `Date.prototype.getDay` (0 = Sunday): day 0 (1970-01-01) was a
Thursday. -/
def getDay (d : JSDate) : Int := (d.day + 4) % 7

/-- Gregorian `(year, month 1..12, day 1..31)` of a day number (civil
calendar conversion, as computed by the JS `Date` getters). -/
def civilFromDays (z0 : Int) : Int × Int × Int :=
  let z := z0 + 719468
  let era := z.fdiv 146097
  let doe := z - era * 146097
  let yoe := (doe - doe.fdiv 1460 + doe.fdiv 36524 - doe.fdiv 146096).fdiv 365
  let y := yoe + era * 400
  let doy := doe - (365 * yoe + yoe.fdiv 4 - yoe.fdiv 100)
  let mp := (5 * doy + 2).fdiv 153
  let d := doy - (153 * mp + 2).fdiv 5 + 1
  let m := if mp < 10 then mp + 3 else mp - 9
  (if m ≤ 2 then y + 1 else y, m, d)

/-- Day number of civil `(year, month 1..12, day)`; linear in `day`, so it
also normalizes out-of-range day values exactly as `new Date(y, m, d)`
does. -/
def daysFromCivil (y m d : Int) : Int :=
  let y' := if m ≤ 2 then y - 1 else y
  let era := y'.fdiv 400
  let yoe := y' - era * 400
  let mp := if 2 < m then m - 3 else m + 9
  let doy := (153 * mp + 2).fdiv 5 + d - 1
  let doe := yoe * 365 + yoe.fdiv 4 - yoe.fdiv 100 + doy
  era * 146097 + doe - 719468

/-- `new Date(year, monthIndex, day)` (month 0-based, both month and day
may be out of range and are normalized), at local midnight. -/
def mkJSDate (y mIdx d : Int) : JSDate :=
  ⟨daysFromCivil (y + mIdx.fdiv 12) (mIdx.fmod 12 + 1) 1 + (d - 1), 0⟩

/-- `` `${n}`.padStart(2, '0') ``. -/
def padTo2 (s : String) : String :=
  String.mk (List.replicate (2 - s.length) '0') ++ s

/-- `formatISODate(date)`: `` `${year}-${month+1}-${day}` `` with 2-digit
padding of month and day. -/
def formatISODate (d : JSDate) : String :=
  let c := civilFromDays d.day
  toString c.1 ++ "-" ++ padTo2 (toString c.2.1) ++ "-" ++ padTo2 (toString c.2.2)

/-- The `{ fromISO, toISO }` result type. -/
structure DateRange where
  fromISO : String
  toISO : String
deriving DecidableEq

/-- `getDayRange(date)`. -/
def getDayRange (date : JSDate) : DateRange :=
  let f := startOfDay date
  ⟨formatISODate f, formatISODate (addDays f 1)⟩

/-- `getStartOfWeekMonday(date)`. -/
def getStartOfWeekMonday (date : JSDate) : JSDate :=
  let currentDay := getDay date
  let diffToMonday := if currentDay = 0 then -6 else 1 - currentDay
  startOfDay (addDays date diffToMonday)

/-- `getWeekRange(weekStartDate)`. -/
def getWeekRange (weekStartDate : JSDate) : DateRange :=
  let f := getStartOfWeekMonday weekStartDate
  ⟨formatISODate f, formatISODate (addDays f 7)⟩

/-- `getMonthRange(monthDate)`. -/
def getMonthRange (monthDate : JSDate) : DateRange :=
  let c := civilFromDays monthDate.day
  let f := mkJSDate c.1 (c.2.1 - 1) 1
  let t := mkJSDate c.1 (c.2.1 - 1 + 1) 1
  ⟨formatISODate f, formatISODate t⟩

/-- `getRangeRange(rangeStart, rangeEnd)`. -/
def getRangeRange (rangeStart rangeEnd : JSDate) : DateRange :=
  let start := startOfDay rangeStart
  let stop := startOfDay rangeEnd
  let f := if tsOf start ≤ tsOf stop then start else stop
  let toInclusive := if tsOf start ≤ tsOf stop then stop else start
  let toExclusive := addDays toInclusive 1
  ⟨formatISODate f, formatISODate toExclusive⟩

/-- The `AnalyticsPeriod` union type. -/
inductive AnalyticsPeriod where
  | day
  | week
  | month
  | range
deriving DecidableEq

/-- `getDateRange(period)`; `now` is the `new Date()` taken at the call. -/
def getDateRange (period : AnalyticsPeriod) (now : JSDate) : DateRange :=
  if period = .day then getDayRange now
  else if period = .week then getWeekRange now
  else if period = .month then getMonthRange now
  else getDayRange now

/-! ## Money (src/utils/money.ts, app/(tabs)/_layout.tsx) -/

/-- A JS number where non-finite values matter: a rational, or one of the
non-finite values. -/
inductive JSNum where
  | finite (q : ℚ)
  | nan
  | inf
  | negInf
deriving DecidableEq

/-- `Number.isFinite`. -/
def isFiniteJS : JSNum → Bool
  | .finite _ => true
  | _ => false

/-- `SUPPORTED_CURRENCIES`. -/
def SUPPORTED_CURRENCIES : List String := ["EUR", "USD", "GBP", "RUB"]

/-- `CURRENCY_SYMBOLS[code]`, read through `getCurrencySymbol`.  For a code
outside the record a JS property read yields `undefined`, which string
interpolation renders as `"undefined"`. -/
def getCurrencySymbol (code : String) : String :=
  if code = "EUR" then "€"
  else if code = "USD" then "$"
  else if code = "GBP" then "£"
  else if code = "RUB" then "₽"
  else "undefined"

/-- `toCurrencyCode(code)`; `none` is `undefined`/`null`, and the emptiness
test is the JS truthiness check `code &&`. -/
def toCurrencyCode (code : Option String) : String :=
  match code with
  | some c => if c ≠ "" ∧ c ∈ SUPPORTED_CURRENCIES then c else "EUR"
  | none => "EUR"

/-- `Math.round` (round half toward +∞), as the floor of `q + 1/2`:
`⌊n/d + 1/2⌋ = ⌊(2n+d)/(2d)⌋`. -/
def jsRound (q : ℚ) : Int := (2 * q.num + (q.den : Int)).fdiv (2 * (q.den : Int))

/-- Insert a `','` after every third digit on a reversed digit list
(worker: the list argument is the part after the carried head digit). -/
def commaGroupRevAux (d : Char) : List Char → List Char
  | d2 :: d3 :: d4 :: rest => d :: d2 :: d3 :: ',' :: commaGroupRevAux d4 rest
  | l => d :: l

/-- Insert a `','` after every third digit, on a reversed digit list. -/
def commaGroupRev : List Char → List Char
  | [] => []
  | d :: rest => commaGroupRevAux d rest

/-- Render a natural number with en-US thousands separators. -/
def groupThousands (n : Nat) : String :=
  String.mk ((commaGroupRev (Nat.repr n).data.reverse).reverse)

/-- `amount.toLocaleString('en-US', { minimumFractionDigits: 2,
maximumFractionDigits: 2 })`: round to cents (half away from zero), group
the integer part by thousands, always print 2 fraction digits. -/
def formatNumberEnUS2 (q : ℚ) : String :=
  let cents : Nat := (jsRound (|q| * 100)).toNat
  let fracPart := Nat.repr (cents % 100)
  (if q < 0 then "-" else "") ++ groupThousands (cents / 100) ++ "." ++
    (if fracPart.length < 2 then "0" ++ fracPart else fracPart)

/-- `formatMoney(amount, currencyCode)`.  The currency code parameter is
typed `CurrencyCode` in TS but can hold any runtime string (or be absent),
which `toCurrencyCode` sanitizes. -/
def formatMoney (amount : JSNum) (currencyCode : Option String) : String :=
  let normalizedAmount : ℚ := match amount with | .finite q => q | _ => 0
  let safeCode := toCurrencyCode currencyCode
  let symbol := getCurrencySymbol safeCode
  symbol ++ formatNumberEnUS2 normalizedAmount

/-- `x.toFixed(1)` for the non-negative one-decimal values this code path
produces. -/
def toFixed1 (q : ℚ) : String :=
  let n := jsRound (q * 10)
  toString (n.fdiv 10) ++ "." ++ toString (n.fmod 10)

/-- `.replace(/\.0$/, '')`. -/
def stripDot0 (s : String) : String :=
  match s.data.reverse with
  | '0' :: '.' :: restRev => String.mk restRev.reverse
  | _ => s

/-- `formatCompactCurrency(amount, currencyCode)` from the budget screen. -/
def formatCompactCurrency (amount : JSNum) (currencyCode : String) : String :=
  let normalizedAmount : ℚ := match amount with | .finite q => q | _ => 0
  let absAmount := |normalizedAmount|
  if absAmount < 1000 then formatMoney (.finite normalizedAmount) (some currencyCode)
  else
    let symbol := getCurrencySymbol currencyCode
    let sign := if normalizedAmount < 0 then "-" else ""
    let divisorSuffix : ℚ × String :=
      if absAmount ≥ 1000000000 then (1000000000, "B")
      else if absAmount ≥ 1000000 then (1000000, "M")
      else (1000, "K")
    let compactValue := absAmount / divisorSuffix.1
    let roundedValue : ℚ :=
      if compactValue ≥ 100 then (jsRound compactValue : ℚ)
      else (jsRound (compactValue * 10) : ℚ) / 10
    let displayValue :=
      if roundedValue.den = 1 then toString roundedValue.num
      else stripDot0 (toFixed1 roundedValue)
    sign ++ symbol ++ displayValue ++ divisorSuffix.2

/-- The compact formatting algorithm as the specification words it: scale by
1000 / 1000000 / 1000000000 choosing the K/M/B suffix by magnitude, round to
1 decimal place below 100 and to a whole number at or above 100, strip a
trailing ".0", prepend the currency symbol and a "-" for negative amounts. -/
def formatCompactCurrencySpec (a : ℚ) (currencyCode : String) : String :=
  let mag := |a|
  let divisorSuffix : ℚ × String :=
    if mag ≥ 1000000000 then (1000000000, "B")
    else if mag ≥ 1000000 then (1000000, "M")
    else (1000, "K")
  let scaled := mag / divisorSuffix.1
  let rounded : ℚ :=
    if scaled < 100 then (jsRound (scaled * 10) : ℚ) / 10
    else (jsRound scaled : ℚ)
  (if a < 0 then "-" else "") ++ getCurrencySymbol currencyCode ++
    stripDot0 (toFixed1 rounded) ++ divisorSuffix.2

/-! ## Settings / budget store (src/db/settings) -/

/-- Split a leading run of decimal digits from the rest. -/
def spanDigits : List Char → List Char × List Char
  | [] => ([], [])
  | c :: rest =>
    if '0' ≤ c ∧ c ≤ '9' then
      let p := spanDigits rest
      (c :: p.1, p.2)
    else ([], c :: rest)

/-- Numeric value of a digit run. -/
def digitsToNat (ds : List Char) : Nat :=
  ds.foldl (fun acc c => acc * 10 + (c.toNat - '0'.toNat)) 0

/-- `10 ^ n` in `ℚ`. -/
def pow10 (n : Nat) : ℚ := (10 : ℚ) ^ n

/-- Apply a decimal exponent suffix (the digits after `e`/`e+`/`e-`);
produces NaN when the exponent digits are missing or trailing characters
remain. -/
def expApply (base : ℚ) (ds : List Char) (neg : Bool) : JSNum :=
  let p := spanDigits ds
  if p.1 = [] ∨ p.2 ≠ [] then .nan
  else .finite (if neg then base / pow10 (digitsToNat p.1) else base * pow10 (digitsToNat p.1))

/-- Parse the optional exponent part after the mantissa; NaN on trailing
junk. -/
def parseExpTail (base : ℚ) : List Char → JSNum
  | [] => .finite base
  | c :: r =>
    if c = 'e' ∨ c = 'E' then
      match r with
      | '+' :: r2 => expApply base r2 false
      | '-' :: r2 => expApply base r2 true
      | _ => expApply base r false
    else .nan

/-- Parse an unsigned JS numeric literal (decimal mantissa with optional
fraction and exponent, or `Infinity`).  This models the decimal subset of
the `Number()` string coercion grammar, which covers every value the
settings writer produces; other syntaxes (hex, binary) are not stored by
this app and are out of the model. -/
def parseUnsignedJsNumber (cs : List Char) : JSNum :=
  if cs = ['I', 'n', 'f', 'i', 'n', 'i', 't', 'y'] then .inf
  else
    let ip := spanDigits cs
    match ip.2 with
    | '.' :: r2 =>
      let fp := spanDigits r2
      if ip.1 = [] ∧ fp.1 = [] then .nan
      else
        parseExpTail ((digitsToNat ip.1 : ℚ) + (digitsToNat fp.1 : ℚ) / pow10 fp.1.length) fp.2
    | _ =>
      if ip.1 = [] then .nan else parseExpTail (digitsToNat ip.1 : ℚ) ip.2

/-- `Number(s)` for a string: trim whitespace, empty means `0`, optional
sign, then an unsigned numeric literal; anything else is NaN. -/
def jsStringToNumber (s : String) : JSNum :=
  let cs := trimTrailingWs (dropLeadingWs s.data)
  match cs with
  | [] => .finite 0
  | '-' :: r =>
    (match parseUnsignedJsNumber r with
     | .finite q => .finite (-q)
     | .inf => .negInf
     | x => x)
  | '+' :: r => parseUnsignedJsNumber r
  | _ => parseUnsignedJsNumber cs

/-- Decimal fraction digits of `r / d` (`0 ≤ r < d`), with enough fuel for
every terminating expansion this app can store; JS numbers are binary
floats, whose decimal expansions terminate. -/
def decFracDigits : Nat → Nat → Nat → List Char
  | _, _, 0 => []
  | 0, _, _ => []
  | r, d, fuel + 1 => Nat.digitChar (r * 10 / d) :: decFracDigits (r * 10 % d) d fuel

/-- `String(q)` for a finite JS number: sign, integer part, and the decimal
fraction digits when the value is not an integer. -/
def jsNumToString (q : ℚ) : String :=
  let a := |q|
  let ip : Nat := a.num.toNat / a.den
  let frac := decFracDigits (a.num.toNat % a.den) a.den a.den
  (if q < 0 then "-" else "") ++ Nat.repr ip ++
    (if frac = [] then "" else "." ++ String.mk frac)

/-- `setMonthlyBudgetSetting(amount)`: the string written under the
`monthlyBudget` key (`""` is the "unset" sentinel). -/
def setMonthlyBudgetSetting (amount : Option JSNum) : String :=
  match amount with
  | none => ""
  | some a =>
    jsNumToString (match a with | .finite q => if 0 ≤ q then q else 0 | _ => 0)

/-- `getMonthlyBudgetSetting()`: `stored` is the value under the
`monthlyBudget` key (`none` when the row is absent). -/
def getMonthlyBudgetSetting (stored : Option String) : Option ℚ :=
  match stored with
  | none => none
  | some s =>
    if s = "" then none
    else
      match jsStringToNumber s with
      | .finite q => if q < 0 then none else some q
      | _ => none

/-! ## JSON (model of the `JSON.parse` builtin, for getRecentCategories) -/

/-- A parsed JSON value.  Number literals keep their lexeme: no claim
depends on numeric values of stored JSON. -/
inductive JSValue where
  | jnull
  | jbool (b : Bool)
  | jnum (raw : String)
  | jstr (s : String)
  | jarr (elems : List JSValue)
  | jobj (fields : List (String × JSValue))

/-- Skip JSON insignificant whitespace. -/
def skipWsJson : List Char → List Char
  | [] => []
  | c :: rest =>
    if c = ' ' ∨ c = '\t' ∨ c = '\n' ∨ c = '\r' then skipWsJson rest else c :: rest

/-- Single-character string escapes. -/
def escChar (e : Char) : Option Char :=
  if e = '"' then some '"'
  else if e = '\\' then some '\\'
  else if e = '/' then some '/'
  else if e = 'b' then some (Char.ofNat 8)
  else if e = 'f' then some (Char.ofNat 12)
  else if e = 'n' then some '\n'
  else if e = 'r' then some '\r'
  else if e = 't' then some '\t'
  else none

/-- Hexadecimal digit value. -/
def hexVal (c : Char) : Option Nat :=
  if '0' ≤ c ∧ c ≤ '9' then some (c.toNat - '0'.toNat)
  else if 'a' ≤ c ∧ c ≤ 'f' then some (c.toNat - 'a'.toNat + 10)
  else if 'A' ≤ c ∧ c ≤ 'F' then some (c.toNat - 'A'.toNat + 10)
  else none

/-- Parse the body of a JSON string after the opening quote; returns the
decoded characters and the remainder after the closing quote. -/
def parseStringBody : Nat → List Char → Option (List Char × List Char)
  | 0, _ => none
  | _, [] => none
  | fuel + 1, c :: rest =>
    if c = '"' then some ([], rest)
    else if c = '\\' then
      match rest with
      | [] => none
      | e :: rest2 =>
        if e = 'u' then
          match rest2 with
          | h1 :: h2 :: h3 :: h4 :: rest3 =>
            match hexVal h1, hexVal h2, hexVal h3, hexVal h4 with
            | some a, some b, some c3, some d =>
              match parseStringBody fuel rest3 with
              | some (s, rem) => some (Char.ofNat (((a * 16 + b) * 16 + c3) * 16 + d) :: s, rem)
              | none => none
            | _, _, _, _ => none
          | _ => none
        else
          match escChar e with
          | some ec =>
            match parseStringBody fuel rest2 with
            | some (s, rem) => some (ec :: s, rem)
            | none => none
          | none => none
    else if c.toNat < 32 then none
    else
      match parseStringBody fuel rest with
      | some (s, rem) => some (c :: s, rem)
      | none => none

/-- Parse the fraction part of a number lexeme. -/
def parseFracPart : List Char → Option (List Char × List Char)
  | '.' :: r =>
    (match spanDigits r with
     | ([], _) => none
     | (d, rr) => some ('.' :: d, rr))
  | cs => some ([], cs)

/-- Parse the exponent part of a number lexeme. -/
def parseExpPart : List Char → Option (List Char × List Char)
  | [] => some ([], [])
  | c :: r =>
    if c = 'e' ∨ c = 'E' then
      match r with
      | s :: r2 =>
        if s = '+' ∨ s = '-' then
          match spanDigits r2 with
          | ([], _) => none
          | (d, rr) => some (c :: s :: d, rr)
        else
          match spanDigits r with
          | ([], _) => none
          | (d, rr) => some (c :: d, rr)
      | [] => none
    else some ([], c :: r)

/-- Parse an unsigned JSON number lexeme (strict JSON grammar: a leading
`0` is not followed by further integer digits). -/
def parseNumberCore (cs : List Char) : Option (List Char × List Char) :=
  match cs with
  | [] => none
  | c :: rest =>
    if '0' ≤ c ∧ c ≤ '9' then
      let ipr : List Char × List Char := if c = '0' then (['0'], rest) else spanDigits cs
      match parseFracPart ipr.2 with
      | none => none
      | some (fp, r2) =>
        match parseExpPart r2 with
        | none => none
        | some (ep, r3) => some (ipr.1 ++ fp ++ ep, r3)
    else none

/-- Parse a JSON number lexeme with optional leading minus. -/
def parseNumberLex (cs : List Char) : Option (List Char × List Char) :=
  match cs with
  | '-' :: r =>
    (match parseNumberCore r with
     | some (l, rest) => some ('-' :: l, rest)
     | none => none)
  | _ => parseNumberCore cs

mutual

/-- Parse one JSON value (recursive descent with fuel; the fuel passed by
`jsonParse` suffices for every input). -/
def parseJsonValue : Nat → List Char → Option (JSValue × List Char)
  | 0, _ => none
  | fuel + 1, cs =>
    match skipWsJson cs with
    | 'n' :: 'u' :: 'l' :: 'l' :: rest => some (.jnull, rest)
    | 't' :: 'r' :: 'u' :: 'e' :: rest => some (.jbool true, rest)
    | 'f' :: 'a' :: 'l' :: 's' :: 'e' :: rest => some (.jbool false, rest)
    | '"' :: rest =>
      (match parseStringBody (fuel + 1) rest with
       | some (s, rem) => some (.jstr (String.mk s), rem)
       | none => none)
    | '[' :: rest =>
      (match skipWsJson rest with
       | ']' :: rem => some (.jarr [], rem)
       | cs2 =>
         match parseJsonItems fuel cs2 with
         | some (items, rem) => some (.jarr items, rem)
         | none => none)
    | '{' :: rest =>
      (match skipWsJson rest with
       | '}' :: rem => some (.jobj [], rem)
       | cs2 =>
         match parseJsonMembers fuel cs2 with
         | some (fields, rem) => some (.jobj fields, rem)
         | none => none)
    | cs1 =>
      match parseNumberLex cs1 with
      | some (lexeme, rest) => some (.jnum (String.mk lexeme), rest)
      | none => none

/-- Parse the comma-separated items of a non-empty JSON array, up to and
including the closing bracket. -/
def parseJsonItems : Nat → List Char → Option (List JSValue × List Char)
  | 0, _ => none
  | fuel + 1, cs =>
    match parseJsonValue fuel cs with
    | none => none
    | some (v, rest) =>
      match skipWsJson rest with
      | ',' :: rest2 =>
        (match parseJsonItems fuel rest2 with
         | some (items, rem) => some (v :: items, rem)
         | none => none)
      | ']' :: rem => some ([v], rem)
      | _ => none

/-- Parse the members of a non-empty JSON object, up to and including the
closing brace. -/
def parseJsonMembers : Nat → List Char → Option (List (String × JSValue) × List Char)
  | 0, _ => none
  | fuel + 1, cs =>
    match skipWsJson cs with
    | '"' :: rest =>
      (match parseStringBody (fuel + 1) rest with
       | none => none
       | some (k, rest2) =>
         match skipWsJson rest2 with
         | ':' :: rest3 =>
           (match parseJsonValue fuel rest3 with
            | none => none
            | some (v, rest4) =>
              match skipWsJson rest4 with
              | ',' :: rest5 =>
                (match parseJsonMembers fuel rest5 with
                 | some (fs, rem) => some ((String.mk k, v) :: fs, rem)
                 | none => none)
              | '}' :: rem => some ([(String.mk k, v)], rem)
              | _ => none)
         | _ => none)
    | _ => none

end

/-- `JSON.parse(s)`: `none` is a thrown `SyntaxError` (including trailing
garbage). -/
def jsonParse (s : String) : Option JSValue :=
  match parseJsonValue (2 * s.data.length + 4) s.data with
  | some (v, rest) => if skipWsJson rest = [] then some v else none
  | none => none

/-- Extract the entries of an all-strings array; `none` when some element
is not a string (on which `normalizeCategoryName`'s `.trim()` call throws a
`TypeError`, caught by the surrounding `catch`). -/
def asStringArray : List JSValue → Option (List String)
  | [] => some []
  | .jstr s :: rest =>
    (match asStringArray rest with
     | some l => some (s :: l)
     | none => none)
  | _ => none

/-- `getRecentCategories()`: `stored` is the raw setting value (`none` when
the row is absent); every failure path degrades to `[]`. -/
def getRecentCategoriesStored (stored : Option String) : List String :=
  match stored with
  | none => []
  | some s =>
    if s = "" then []
    else
      match jsonParse s with
      | none => []
      | some (.jarr elems) =>
        (match asStringArray elems with
         | some strs => (dedupeCaseInsensitive strs).take MAX_RECENT_CATEGORIES
         | none => [])
      | some _ => []

/-! ## Theorems -/

/-! ### String plumbing -/

theorem strAppend_data (a b : String) : (a ++ b).data = a.data ++ b.data := by
  cases a; cases b; rfl

theorem strEmpty_append (s : String) : "" ++ s = s := by
  cases s; rfl

theorem strAppend_assoc (a b c : String) : (a ++ b) ++ c = a ++ (b ++ c) := by
  cases a; cases b; cases c
  show String.mk _ = String.mk _
  rw [List.append_assoc]

/-! ### Normalization is idempotent -/

theorem dropLeadingWs_eq_of_headNotWs {cs : List Char} (h : headNotWs cs = true) :
    dropLeadingWs cs = cs := by
  cases cs with
  | nil => rfl
  | cons c rest =>
    simp only [headNotWs, Bool.not_eq_true'] at h
    simp [dropLeadingWs, h]

theorem dropLeadingWs_or (cs : List Char) :
    dropLeadingWs cs = [] ∨ headNotWs (dropLeadingWs cs) = true := by
  induction cs with
  | nil => exact Or.inl rfl
  | cons c rest ih =>
    by_cases h : c.isWhitespace
    · simpa [dropLeadingWs, h] using ih
    · right
      simp [dropLeadingWs, h, headNotWs]

theorem noTrailWs_trimTrailingWs (cs : List Char) : noTrailWs (trimTrailingWs cs) = true := by
  induction cs with
  | nil => rfl
  | cons c rest ih =>
    simp only [trimTrailingWs]
    by_cases h : trimTrailingWs rest = [] ∧ c.isWhitespace
    · simp [h, noTrailWs]
    · rw [if_neg h]
      rcases hr : trimTrailingWs rest with _ | ⟨d, t⟩
      · have hc : c.isWhitespace = false := by
          rcases Bool.eq_false_or_eq_true c.isWhitespace with hb | hb
          · exact absurd ⟨hr, hb⟩ h
          · exact hb
        simp [noTrailWs, hc]
      · rw [hr] at ih
        simpa [noTrailWs] using ih

theorem headNotWs_trimTrailingWs {cs : List Char} (h : headNotWs cs = true) :
    trimTrailingWs cs = [] ∨ headNotWs (trimTrailingWs cs) = true := by
  cases cs with
  | nil => exact Or.inl rfl
  | cons c rest =>
    simp only [trimTrailingWs]
    by_cases hc : trimTrailingWs rest = [] ∧ c.isWhitespace
    · exact Or.inl (by rw [if_pos hc])
    · right
      rw [if_neg hc]
      simpa [headNotWs] using h

theorem collapseWs_cons_not_ws {c : Char} (rest : List Char) (b : Bool)
    (h : c.isWhitespace = false) : collapseWs (c :: rest) b = c :: collapseWs rest false := by
  simp [collapseWs, h]

theorem canonAux_collapseWs :
    ∀ u : List Char, noTrailWs u = true →
      ∀ b, canonAux (collapseWs u b) = true ∧
        (u ≠ [] → headNotWs (collapseWs u true) = true) := by
  intro u
  induction u with
  | nil => intro _ b; exact ⟨rfl, fun h => absurd rfl h⟩
  | cons c rest ih =>
    intro hno b
    by_cases hws : c.isWhitespace
    · have hrest : rest ≠ [] := by
        intro h
        subst h
        simp [noTrailWs, hws] at hno
      have hno' : noTrailWs rest = true := by
        rcases rest with _ | ⟨d, t⟩
        · exact absurd rfl hrest
        · simpa [noTrailWs] using hno
      have IH := ih hno'
      constructor
      · cases b with
        | false =>
          have e : collapseWs (c :: rest) false = ' ' :: collapseWs rest true := by
            simp [collapseWs, hws]
          rw [e]
          have h1 := (IH true).1
          have h2 := (IH true).2 hrest
          simp [canonAux, h1, h2]
        | true =>
          have e : collapseWs (c :: rest) true = collapseWs rest true := by
            simp [collapseWs, hws]
          rw [e]
          exact (IH true).1
      · intro _
        have e : collapseWs (c :: rest) true = collapseWs rest true := by
          simp [collapseWs, hws]
        rw [e]
        exact (IH true).2 hrest
    · have hws' : c.isWhitespace = false := by simpa using hws
      constructor
      · rw [collapseWs_cons_not_ws rest b hws']
        have hca : canonAux (collapseWs rest false) = true := by
          rcases rest with _ | ⟨d, t⟩
          · rfl
          · have hno' : noTrailWs (d :: t) = true := by simpa [noTrailWs] using hno
            exact (ih hno' false).1
        simp [canonAux, hws', hca]
      · intro _
        rw [collapseWs_cons_not_ws rest true hws']
        simp [headNotWs, hws']

theorem trimTrailingWs_eq_of_canonAux :
    ∀ cs : List Char, canonAux cs = true → trimTrailingWs cs = cs := by
  intro cs
  induction cs with
  | nil => intro _; rfl
  | cons c rest ih =>
    intro h
    simp only [canonAux, Bool.and_eq_true] at h
    have hrest := ih h.2
    simp only [trimTrailingWs, hrest]
    by_cases hws : c.isWhitespace
    · have hh : headNotWs rest = true := by
        have := h.1
        simp [hws, Bool.and_eq_true] at this
        exact this.2
      have : rest ≠ [] := by
        intro he
        rw [he] at hh
        simp [headNotWs] at hh
      simp [this, hws]
    · simp [hws]

theorem collapseWs_eq_of_canonAux :
    ∀ cs : List Char, canonAux cs = true →
      collapseWs cs false = cs ∧ (headNotWs cs = true → collapseWs cs true = cs) := by
  intro cs
  induction cs with
  | nil => intro _; exact ⟨rfl, fun _ => rfl⟩
  | cons c rest ih =>
    intro h
    simp only [canonAux, Bool.and_eq_true] at h
    have IH := ih h.2
    by_cases hws : c.isWhitespace
    · have hc : c = ' ' ∧ headNotWs rest = true := by
        have := h.1
        simp [hws, Bool.and_eq_true, beq_iff_eq] at this
        exact this
      constructor
      · have e : collapseWs (c :: rest) false = ' ' :: collapseWs rest true := by
          simp [collapseWs, hws]
        rw [e, IH.2 hc.2, ← hc.1]
      · intro hh
        rw [show headNotWs (c :: rest) = !c.isWhitespace from rfl, hws] at hh
        simp at hh
    · have hws' : c.isWhitespace = false := by simpa using hws
      refine ⟨?_, fun _ => ?_⟩
      · rw [collapseWs_cons_not_ws rest false hws', IH.1]
      · rw [collapseWs_cons_not_ws rest true hws', IH.1]

theorem headNotWs_collapseWs {cs : List Char} (h : headNotWs cs = true) :
    headNotWs (collapseWs cs false) = true := by
  cases cs with
  | nil => simp [headNotWs] at h
  | cons c rest =>
    simp only [headNotWs, Bool.not_eq_true'] at h
    rw [collapseWs_cons_not_ws rest false h]
    simp [headNotWs, h]

/-- Normalizing an already-normalized category name returns it unchanged. -/
theorem normalizeCategoryName_idem (s : String) :
    normalizeCategoryName (normalizeCategoryName s) = normalizeCategoryName s := by
  unfold normalizeCategoryName
  set w := dropLeadingWs s.data with hw
  set u := trimTrailingWs w with hu
  set y := collapseWs u false with hy
  show String.mk (collapseWs (trimTrailingWs (dropLeadingWs y)) false) = String.mk y
  have hnoT : noTrailWs u = true := noTrailWs_trimTrailingWs w
  have hcanon : canonAux y = true := (canonAux_collapseWs u hnoT false).1
  by_cases hynil : y = []
  · rw [hynil]
    rfl
  · have hunil : u ≠ [] := by
      intro he
      rw [hy, he] at hynil
      exact hynil rfl
    have hwH : headNotWs w = true := by
      rcases dropLeadingWs_or s.data with h0 | h0
      · rw [hw] at *
        exact absurd (by rw [hu, h0]; rfl) hunil
      · exact h0
    have huH : headNotWs u = true := by
      rcases headNotWs_trimTrailingWs hwH with h0 | h0
      · exact absurd (by rw [hu]; exact h0) hunil
      · exact h0
    have hyH : headNotWs y = true := headNotWs_collapseWs huH
    rw [dropLeadingWs_eq_of_headNotWs hyH, trimTrailingWs_eq_of_canonAux y hcanon,
      (collapseWs_eq_of_canonAux y hcanon).1]

/-! ### dedupeCaseInsensitive invariants -/

theorem dedupeAux_canon :
    ∀ (l : List String) (seen : List String),
      (∀ x ∈ dedupeAux seen l,
        normalizeCategoryName x = x ∧ x ≠ "" ∧ strToLower x ∉ seen) ∧
      (dedupeAux seen l).Pairwise (fun a b => strToLower a ≠ strToLower b) := by
  intro l
  induction l with
  | nil =>
    intro seen
    exact ⟨fun x hx => absurd hx (List.not_mem_nil x), List.Pairwise.nil⟩
  | cons v rest ih =>
    intro seen
    by_cases h1 : normalizeCategoryName v = ""
    · simpa [dedupeAux, h1] using ih seen
    · by_cases h2 : strToLower (normalizeCategoryName v) ∈ seen
      · simpa [dedupeAux, h1, h2] using ih seen
      · have e : dedupeAux seen (v :: rest) =
            normalizeCategoryName v ::
              dedupeAux (strToLower (normalizeCategoryName v) :: seen) rest := by
          simp [dedupeAux, h1, h2]
        have ih' := ih (strToLower (normalizeCategoryName v) :: seen)
        rw [e]
        constructor
        · intro x hx
          rcases List.mem_cons.mp hx with hx | hx
          · subst hx
            exact ⟨normalizeCategoryName_idem v, h1, h2⟩
          · have hx' := ih'.1 x hx
            refine ⟨hx'.1, hx'.2.1, ?_⟩
            intro hs
            exact hx'.2.2 (List.mem_cons_of_mem _ hs)
        · refine List.pairwise_cons.mpr ⟨?_, ih'.2⟩
          intro x hx
          have hx' := ih'.1 x hx
          intro he
          exact hx'.2.2 (he ▸ List.mem_cons_self _ _)

theorem dedupeAux_fixed :
    ∀ (l : List String) (seen : List String),
      (∀ x ∈ l, normalizeCategoryName x = x ∧ x ≠ "") →
      l.Pairwise (fun a b => strToLower a ≠ strToLower b) →
      (∀ x ∈ l, strToLower x ∉ seen) →
      dedupeAux seen l = l := by
  intro l
  induction l with
  | nil => intro seen _ _ _; rfl
  | cons v rest ih =>
    intro seen hfix hpw hseen
    have hv := hfix v (List.mem_cons_self _ _)
    have hsv := hseen v (List.mem_cons_self _ _)
    have e : dedupeAux seen (v :: rest) =
        v :: dedupeAux (strToLower v :: seen) rest := by
      simp [dedupeAux, hv.1, hv.2, hsv]
    rw [e]
    have hpw' := List.pairwise_cons.mp hpw
    congr 1
    refine ih _ (fun x hx => hfix x (List.mem_cons_of_mem _ hx)) hpw'.2 ?_
    intro x hx hmem
    rcases List.mem_cons.mp hmem with hk | hk
    · exact hpw'.1 x hx hk.symm
    · exact hseen x (List.mem_cons_of_mem _ hx) hk

theorem CanonKeyed_sublist {l' l : List String} (hs : l'.Sublist l) (h : CanonKeyed l) :
    CanonKeyed l' :=
  ⟨fun x hx => h.1 x (hs.subset hx), h.2.sublist hs⟩

theorem CanonKeyed_dedupe (l : List String) : CanonKeyed (dedupeCaseInsensitive l) := by
  have h := dedupeAux_canon l []
  exact ⟨fun x hx => ⟨(h.1 x hx).1, (h.1 x hx).2.1⟩, h.2⟩

theorem readRecentFromList_canon (l : List String) :
    CanonKeyed (readRecentFromList l) ∧ (readRecentFromList l).length ≤ MAX_RECENT_CATEGORIES := by
  constructor
  · exact CanonKeyed_sublist (List.take_sublist _ _) (CanonKeyed_dedupe l)
  · simp [readRecentFromList, List.length_take]

theorem readRecentFromList_fixed {l : List String} (h : CanonKeyed l)
    (hlen : l.length ≤ MAX_RECENT_CATEGORIES) : readRecentFromList l = l := by
  unfold readRecentFromList dedupeCaseInsensitive
  rw [dedupeAux_fixed l [] (fun x hx => h.1 x hx) h.2 (fun x _ hm => List.not_mem_nil _ hm)]
  exact List.take_of_length_le hlen

theorem recordRecentCategory_raw (stored : List String) (n : String)
    (hn : normalizeCategoryName n ≠ "") :
    recordRecentCategory stored n =
      (normalizeCategoryName n ::
        (readRecentFromList stored).filter
          (fun v => strToLower v != strToLower (normalizeCategoryName n))).take
        MAX_RECENT_CATEGORIES := by
  unfold recordRecentCategory
  rw [if_neg hn]

theorem canon_cons_filter (m : String) (c : List String) (hC : CanonKeyed c)
    (hm1 : normalizeCategoryName m = m) (hm2 : m ≠ "") (k : Nat) :
    CanonKeyed ((m :: c.filter (fun v => strToLower v != strToLower m)).take k) ∧
      ((m :: c.filter (fun v => strToLower v != strToLower m)).take k).length ≤ k := by
  constructor
  · refine CanonKeyed_sublist (List.take_sublist _ _) ?_
    constructor
    · intro x hx
      rcases List.mem_cons.mp hx with hx | hx
      · subst hx; exact ⟨hm1, hm2⟩
      · exact hC.1 x (List.mem_filter.mp hx).1
    · refine List.pairwise_cons.mpr ⟨?_, hC.2.sublist (List.filter_sublist _)⟩
      intro x hx
      have := (List.mem_filter.mp hx).2
      rw [bne_iff_ne] at this
      exact fun he => this (he.symm)
  · simp [List.length_take]

theorem recordRecentCategory_step (s : List String) (n : String) (hs : CanonKeyed s)
    (hlen : s.length ≤ MAX_RECENT_CATEGORIES) (hn : normalizeCategoryName n ≠ "") :
    recordRecentCategory s n =
      (normalizeCategoryName n ::
        s.filter (fun v => strToLower v != strToLower (normalizeCategoryName n))).take
        MAX_RECENT_CATEGORIES ∧
    CanonKeyed (recordRecentCategory s n) ∧
      (recordRecentCategory s n).length ≤ MAX_RECENT_CATEGORIES := by
  have e := recordRecentCategory_raw s n hn
  rw [readRecentFromList_fixed hs hlen] at e
  refine ⟨e, ?_, ?_⟩
  · rw [e]
    exact (canon_cons_filter _ s hs (normalizeCategoryName_idem n) hn _).1
  · rw [e]
    exact (canon_cons_filter _ s hs (normalizeCategoryName_idem n) hn _).2

theorem recordRecentCategory_base (l0 : List String) (n : String)
    (hn : normalizeCategoryName n ≠ "") :
    recordRecentCategory l0 n =
      (normalizeCategoryName n ::
        (readRecentFromList l0).filter
          (fun v => strToLower v != strToLower (normalizeCategoryName n))).take
        MAX_RECENT_CATEGORIES ∧
    CanonKeyed (recordRecentCategory l0 n) ∧
      (recordRecentCategory l0 n).length ≤ MAX_RECENT_CATEGORIES := by
  have e := recordRecentCategory_raw l0 n hn
  refine ⟨e, ?_, ?_⟩
  · rw [e]
    exact (canon_cons_filter _ _ (readRecentFromList_canon l0).1
      (normalizeCategoryName_idem n) hn _).1
  · rw [e]
    exact (canon_cons_filter _ _ (readRecentFromList_canon l0).1
      (normalizeCategoryName_idem n) hn _).2

theorem recordRecentCategory_six_aux
    (l0 : List String) (n1 n2 n3 n4 n5 n6 : String)
    (h1 : normalizeCategoryName n1 ≠ "") (h2 : normalizeCategoryName n2 ≠ "")
    (h3 : normalizeCategoryName n3 ≠ "") (h4 : normalizeCategoryName n4 ≠ "")
    (h5 : normalizeCategoryName n5 ≠ "") (h6 : normalizeCategoryName n6 ≠ "")
    (hd : (List.map (fun x => strToLower (normalizeCategoryName x))
        [n1, n2, n3, n4, n5, n6]).Pairwise (· ≠ ·)) :
    List.foldl recordRecentCategory l0 [n1, n2, n3, n4, n5, n6] =
      [normalizeCategoryName n6, normalizeCategoryName n5, normalizeCategoryName n4,
       normalizeCategoryName n3, normalizeCategoryName n2] := by
  simp only [List.map_cons, List.map_nil] at hd
  simp only [List.pairwise_cons, List.mem_cons, List.not_mem_nil, List.mem_singleton,
    forall_eq_or_imp, forall_eq] at hd
  obtain ⟨⟨h12, h13, h14, h15, h16, -⟩, ⟨h23, h24, h25, h26, -⟩, ⟨h34, h35, h36, -⟩,
    ⟨h45, h46, -⟩, ⟨h56, -⟩, -⟩ := hd
  have hp12 : (strToLower (normalizeCategoryName n1) !=
      strToLower (normalizeCategoryName n2)) = true := bne_iff_ne.mpr h12
  have hp13 : (strToLower (normalizeCategoryName n1) !=
      strToLower (normalizeCategoryName n3)) = true := bne_iff_ne.mpr h13
  have hp14 : (strToLower (normalizeCategoryName n1) !=
      strToLower (normalizeCategoryName n4)) = true := bne_iff_ne.mpr h14
  have hp15 : (strToLower (normalizeCategoryName n1) !=
      strToLower (normalizeCategoryName n5)) = true := bne_iff_ne.mpr h15
  have hp16 : (strToLower (normalizeCategoryName n1) !=
      strToLower (normalizeCategoryName n6)) = true := bne_iff_ne.mpr h16
  have hp23 : (strToLower (normalizeCategoryName n2) !=
      strToLower (normalizeCategoryName n3)) = true := bne_iff_ne.mpr h23
  have hp24 : (strToLower (normalizeCategoryName n2) !=
      strToLower (normalizeCategoryName n4)) = true := bne_iff_ne.mpr h24
  have hp25 : (strToLower (normalizeCategoryName n2) !=
      strToLower (normalizeCategoryName n5)) = true := bne_iff_ne.mpr h25
  have hp26 : (strToLower (normalizeCategoryName n2) !=
      strToLower (normalizeCategoryName n6)) = true := bne_iff_ne.mpr h26
  have hp34 : (strToLower (normalizeCategoryName n3) !=
      strToLower (normalizeCategoryName n4)) = true := bne_iff_ne.mpr h34
  have hp35 : (strToLower (normalizeCategoryName n3) !=
      strToLower (normalizeCategoryName n5)) = true := bne_iff_ne.mpr h35
  have hp36 : (strToLower (normalizeCategoryName n3) !=
      strToLower (normalizeCategoryName n6)) = true := bne_iff_ne.mpr h36
  have hp45 : (strToLower (normalizeCategoryName n4) !=
      strToLower (normalizeCategoryName n5)) = true := bne_iff_ne.mpr h45
  have hp46 : (strToLower (normalizeCategoryName n4) !=
      strToLower (normalizeCategoryName n6)) = true := bne_iff_ne.mpr h46
  have hp56 : (strToLower (normalizeCategoryName n5) !=
      strToLower (normalizeCategoryName n6)) = true := bne_iff_ne.mpr h56
  obtain ⟨e1, c1, L1⟩ := recordRecentCategory_base l0 n1 h1
  obtain ⟨e2, c2, L2⟩ := recordRecentCategory_step _ n2 c1 L1 h2
  obtain ⟨e3, c3, L3⟩ := recordRecentCategory_step _ n3 c2 L2 h3
  obtain ⟨e4, c4, L4⟩ := recordRecentCategory_step _ n4 c3 L3 h4
  obtain ⟨e5, c5, L5⟩ := recordRecentCategory_step _ n5 c4 L4 h5
  obtain ⟨e6, -, -⟩ := recordRecentCategory_step _ n6 c5 L5 h6
  have f1 : recordRecentCategory l0 n1 =
      normalizeCategoryName n1 ::
        ((readRecentFromList l0).filter
          (fun v => strToLower v != strToLower (normalizeCategoryName n1))).take 4 := by
    rw [e1]
    simp only [MAX_RECENT_CATEGORIES, List.take_succ_cons]
  have f2 : recordRecentCategory (recordRecentCategory l0 n1) n2 =
      normalizeCategoryName n2 :: normalizeCategoryName n1 ::
        ((((readRecentFromList l0).filter
              (fun v => strToLower v != strToLower (normalizeCategoryName n1))).take 4).filter
          (fun v => strToLower v != strToLower (normalizeCategoryName n2))).take 3 := by
    rw [e2, f1, @List.filter_cons_of_pos String (fun v => strToLower v != strToLower (normalizeCategoryName n2)) (normalizeCategoryName n1) _ hp12]
    simp only [MAX_RECENT_CATEGORIES, List.take_succ_cons]
  have f3 : recordRecentCategory (recordRecentCategory (recordRecentCategory l0 n1) n2) n3 =
      normalizeCategoryName n3 :: normalizeCategoryName n2 :: normalizeCategoryName n1 ::
        ((((((readRecentFromList l0).filter
                  (fun v => strToLower v != strToLower (normalizeCategoryName n1))).take 4).filter
              (fun v => strToLower v != strToLower (normalizeCategoryName n2))).take 3).filter
          (fun v => strToLower v != strToLower (normalizeCategoryName n3))).take 2 := by
    rw [e3, f2, @List.filter_cons_of_pos String (fun v => strToLower v != strToLower (normalizeCategoryName n3)) (normalizeCategoryName n2) _ hp23, @List.filter_cons_of_pos String (fun v => strToLower v != strToLower (normalizeCategoryName n3)) (normalizeCategoryName n1) _ hp13]
    simp only [MAX_RECENT_CATEGORIES, List.take_succ_cons]
  have f4 : recordRecentCategory
      (recordRecentCategory (recordRecentCategory (recordRecentCategory l0 n1) n2) n3) n4 =
      normalizeCategoryName n4 :: normalizeCategoryName n3 :: normalizeCategoryName n2 ::
        normalizeCategoryName n1 ::
        ((((((((readRecentFromList l0).filter
                      (fun v => strToLower v !=
                        strToLower (normalizeCategoryName n1))).take 4).filter
                  (fun v => strToLower v !=
                    strToLower (normalizeCategoryName n2))).take 3).filter
              (fun v => strToLower v != strToLower (normalizeCategoryName n3))).take 2).filter
          (fun v => strToLower v != strToLower (normalizeCategoryName n4))).take 1 := by
    rw [e4, f3, @List.filter_cons_of_pos String (fun v => strToLower v != strToLower (normalizeCategoryName n4)) (normalizeCategoryName n3) _ hp34, @List.filter_cons_of_pos String (fun v => strToLower v != strToLower (normalizeCategoryName n4)) (normalizeCategoryName n2) _ hp24,
      @List.filter_cons_of_pos String (fun v => strToLower v != strToLower (normalizeCategoryName n4)) (normalizeCategoryName n1) _ hp14]
    simp only [MAX_RECENT_CATEGORIES, List.take_succ_cons]
  have f5 : recordRecentCategory (recordRecentCategory
      (recordRecentCategory (recordRecentCategory (recordRecentCategory l0 n1) n2) n3) n4) n5 =
      [normalizeCategoryName n5, normalizeCategoryName n4, normalizeCategoryName n3,
       normalizeCategoryName n2, normalizeCategoryName n1] := by
    rw [e5, f4, @List.filter_cons_of_pos String (fun v => strToLower v != strToLower (normalizeCategoryName n5)) (normalizeCategoryName n4) _ hp45, @List.filter_cons_of_pos String (fun v => strToLower v != strToLower (normalizeCategoryName n5)) (normalizeCategoryName n3) _ hp35,
      @List.filter_cons_of_pos String (fun v => strToLower v != strToLower (normalizeCategoryName n5)) (normalizeCategoryName n2) _ hp25, @List.filter_cons_of_pos String (fun v => strToLower v != strToLower (normalizeCategoryName n5)) (normalizeCategoryName n1) _ hp15]
    simp only [MAX_RECENT_CATEGORIES, List.take_succ_cons, List.take_zero]
  have f6 : recordRecentCategory (recordRecentCategory (recordRecentCategory
      (recordRecentCategory (recordRecentCategory (recordRecentCategory l0 n1) n2) n3)
        n4) n5) n6 =
      [normalizeCategoryName n6, normalizeCategoryName n5, normalizeCategoryName n4,
       normalizeCategoryName n3, normalizeCategoryName n2] := by
    rw [e6, f5, @List.filter_cons_of_pos String (fun v => strToLower v != strToLower (normalizeCategoryName n6)) (normalizeCategoryName n5) _ hp56, @List.filter_cons_of_pos String (fun v => strToLower v != strToLower (normalizeCategoryName n6)) (normalizeCategoryName n4) _ hp46,
      @List.filter_cons_of_pos String (fun v => strToLower v != strToLower (normalizeCategoryName n6)) (normalizeCategoryName n3) _ hp36, @List.filter_cons_of_pos String (fun v => strToLower v != strToLower (normalizeCategoryName n6)) (normalizeCategoryName n2) _ hp26,
      @List.filter_cons_of_pos String (fun v => strToLower v != strToLower (normalizeCategoryName n6)) (normalizeCategoryName n1) _ hp16, List.filter_nil]
    simp only [MAX_RECENT_CATEGORIES, List.take_succ_cons, List.take_zero]
  simp only [List.foldl_cons, List.foldl_nil]
  exact f6

/-- C3 (amended): `recordRecentCategory` is a no-op when the name is empty
after normalization, and otherwise prepends the normalized name, removes any
case-insensitive duplicate of it from the rest, truncates to 5 and persists;
consequently six successive calls with names that are nonempty after
normalization and pairwise case-insensitively distinct after normalization
leave stored exactly the five most recent normalized names, most recent
first. -/
theorem recordRecentCategory_six_most_recent :
    (∀ stored name, normalizeCategoryName name = "" →
      recordRecentCategory stored name = stored) ∧
    (∀ (l0 : List String) (n1 n2 n3 n4 n5 n6 : String),
      normalizeCategoryName n1 ≠ "" → normalizeCategoryName n2 ≠ "" →
      normalizeCategoryName n3 ≠ "" → normalizeCategoryName n4 ≠ "" →
      normalizeCategoryName n5 ≠ "" → normalizeCategoryName n6 ≠ "" →
      (List.map (fun x => strToLower (normalizeCategoryName x))
        [n1, n2, n3, n4, n5, n6]).Pairwise (· ≠ ·) →
      List.foldl recordRecentCategory l0 [n1, n2, n3, n4, n5, n6] =
        [normalizeCategoryName n6, normalizeCategoryName n5, normalizeCategoryName n4,
         normalizeCategoryName n3, normalizeCategoryName n2]) := by
  refine ⟨?_, recordRecentCategory_six_aux⟩
  intro stored name h
  simp [recordRecentCategory, h]

/-- C3 counterexample to the claim as stated: the six names are pairwise
distinct (as strings), yet the stored list after the six calls is not the
five most recent names — recording `"A"` evicts the case-insensitive
duplicate `"a"` instead of the oldest entry. -/
theorem recordRecentCategory_distinct_counterexample :
    (["x", "a", "b", "c", "d", "A"] : List String).Pairwise (· ≠ ·) ∧
    List.foldl recordRecentCategory [] ["x", "a", "b", "c", "d", "A"] =
      ["A", "d", "c", "b", "x"] ∧
    ¬ List.foldl recordRecentCategory [] ["x", "a", "b", "c", "d", "A"] =
      ["A", "d", "c", "b", "a"] := by decide

theorem recordRecentCategory_six_witness :
    recordRecentCategory ["Seed"] "   " = ["Seed"] ∧
    List.foldl recordRecentCategory ["Seed"]
        ["c one", "c two", "c three", "c four", "c five", "c six"] =
      [normalizeCategoryName "c six", normalizeCategoryName "c five",
       normalizeCategoryName "c four", normalizeCategoryName "c three",
       normalizeCategoryName "c two"] :=
  ⟨recordRecentCategory_six_most_recent.1 ["Seed"] "   " (by decide),
   recordRecentCategory_six_most_recent.2 ["Seed"] "c one" "c two" "c three" "c four"
     "c five" "c six" (by decide) (by decide) (by decide) (by decide) (by decide)
     (by decide) (by decide)⟩

/-- C2: `addCustomCategory` fails exactly when the normalized name is empty,
case-insensitively matches a default category, or case-insensitively matches
an existing custom category; otherwise it appends a row with the normalized
name and the creation timestamp and returns the normalized name.  In
particular `"Groceries"` always fails and `"  My Shop  "` succeeds from the
empty table storing `"My Shop"`. -/
theorem addCustomCategory_spec :
    (∀ (rows : List CustomCategoryRow) (nowISO name : String),
      (∃ e, addCustomCategory rows nowISO name = .error e) ↔
        (normalizeCategoryName name = "" ∨
          (∃ d ∈ DEFAULT_CATEGORIES,
            strToLower d = strToLower (normalizeCategoryName name)) ∨
          (∃ c ∈ getCustomCategories rows,
            strToLower c = strToLower (normalizeCategoryName name)))) ∧
    (∀ (rows : List CustomCategoryRow) (nowISO name : String),
      ¬ (normalizeCategoryName name = "" ∨
          (∃ d ∈ DEFAULT_CATEGORIES,
            strToLower d = strToLower (normalizeCategoryName name)) ∨
          (∃ c ∈ getCustomCategories rows,
            strToLower c = strToLower (normalizeCategoryName name))) →
      addCustomCategory rows nowISO name =
        .ok (normalizeCategoryName name,
          rows ++ [⟨nextCustomCategoryId rows, normalizeCategoryName name, nowISO⟩])) ∧
    (∀ (rows : List CustomCategoryRow) (nowISO : String),
      ∃ e, addCustomCategory rows nowISO "Groceries" = .error e) ∧
    (∀ nowISO : String,
      addCustomCategory [] nowISO "  My Shop  " =
        .ok ("My Shop", [⟨1, "My Shop", nowISO⟩])) := by
  refine ⟨?_, ?_, ?_, ?_⟩
  · intro rows nowISO name
    simp only [addCustomCategory]
    by_cases hn : normalizeCategoryName name = ""
    · rw [if_pos hn]
      exact ⟨fun _ => Or.inl hn, fun _ => ⟨_, rfl⟩⟩
    · rw [if_neg hn]
      by_cases hd : DEFAULT_CATEGORIES.any
          (fun v => strToLower v == strToLower (normalizeCategoryName name)) = true
      · rw [if_pos hd]
        refine ⟨fun _ => Or.inr (Or.inl ?_), fun _ => ⟨_, rfl⟩⟩
        rcases List.any_eq_true.mp hd with ⟨d, hdm, hde⟩
        exact ⟨d, hdm, beq_iff_eq.mp hde⟩
      · rw [if_neg hd]
        by_cases hc : (getCustomCategories rows).any
            (fun v => strToLower v == strToLower (normalizeCategoryName name)) = true
        · rw [if_pos hc]
          refine ⟨fun _ => Or.inr (Or.inr ?_), fun _ => ⟨_, rfl⟩⟩
          rcases List.any_eq_true.mp hc with ⟨c, hcm, hce⟩
          exact ⟨c, hcm, beq_iff_eq.mp hce⟩
        · rw [if_neg hc]
          constructor
          · rintro ⟨e, he⟩
            simp at he
          · rintro (h | h | h)
            · exact absurd h hn
            · rcases h with ⟨d, hdm, hde⟩
              exact absurd (List.any_eq_true.mpr ⟨d, hdm, (beq_iff_eq.mpr hde :
                (strToLower d == strToLower (normalizeCategoryName name)) = true)⟩) hd
            · rcases h with ⟨c, hcm, hce⟩
              exact absurd (List.any_eq_true.mpr ⟨c, hcm, (beq_iff_eq.mpr hce :
                (strToLower c == strToLower (normalizeCategoryName name)) = true)⟩) hc
  · intro rows nowISO name hbad
    rw [not_or, not_or] at hbad
    obtain ⟨hA, hB, hC⟩ := hbad
    have hB' : ¬ (DEFAULT_CATEGORIES.any
        (fun v => strToLower v == strToLower (normalizeCategoryName name)) = true) := by
      intro h
      rcases List.any_eq_true.mp h with ⟨d, hdm, hde⟩
      exact hB ⟨d, hdm, beq_iff_eq.mp hde⟩
    have hC' : ¬ ((getCustomCategories rows).any
        (fun v => strToLower v == strToLower (normalizeCategoryName name)) = true) := by
      intro h
      rcases List.any_eq_true.mp h with ⟨c, hcm, hce⟩
      exact hC ⟨c, hcm, beq_iff_eq.mp hce⟩
    simp only [addCustomCategory]
    rw [if_neg hA, if_neg hB', if_neg hC']
  · intro rows nowISO
    simp only [addCustomCategory]
    rw [if_neg (by decide : ¬ normalizeCategoryName "Groceries" = ""), if_pos (by decide)]
    exact ⟨_, rfl⟩
  · intro nowISO
    simp only [addCustomCategory]
    rw [if_neg (by decide : ¬ normalizeCategoryName "  My Shop  " = ""),
      if_neg (by decide), if_neg (by decide)]
    rfl

theorem addCustomCategory_witness :
    addCustomCategory [] "2024-05-01T00:00:00.000Z" "Books" =
      .ok ("Books", [⟨1, "Books", "2024-05-01T00:00:00.000Z"⟩]) :=
  (addCustomCategory_spec.2.1 [] "2024-05-01T00:00:00.000Z" "Books" (by decide)).trans rfl

/-! ### C1: per-category totals sum to the overall total -/

theorem sum_map_zero_q (ks : List String) : (ks.map (fun _ => (0 : ℚ))).sum = 0 := by
  induction ks with
  | nil => rfl
  | cons k t ih => simp [ih]

theorem sum_map_add_q (ks : List String) (f g : String → ℚ) :
    (ks.map (fun c => f c + g c)).sum = (ks.map f).sum + (ks.map g).sum := by
  induction ks with
  | nil => simp
  | cons k t ih =>
    simp only [List.map_cons, List.sum_cons, ih]
    ring

theorem sum_map_if_notmem (ks : List String) (x : String) (a : ℚ) (hx : x ∉ ks) :
    (ks.map (fun c => if x = c then a else 0)).sum = 0 := by
  induction ks with
  | nil => rfl
  | cons k t ih =>
    have hxk : x ≠ k := fun h => hx (h ▸ List.mem_cons_self _ _)
    have hxt : x ∉ t := fun h => hx (List.mem_cons_of_mem _ h)
    simp [hxk, ih hxt]

theorem sum_map_if_single (ks : List String) (x : String) (a : ℚ) (hnd : ks.Nodup)
    (hx : x ∈ ks) : (ks.map (fun c => if x = c then a else 0)).sum = a := by
  induction ks with
  | nil => cases hx
  | cons k t ih =>
    rcases List.mem_cons.mp hx with h | h
    · subst h
      have hnot : x ∉ t := (List.nodup_cons.mp hnd).1
      simp [sum_map_if_notmem t x a hnot]
    · have hnd' := List.nodup_cons.mp hnd
      have hxk : x ≠ k := fun he => hnd'.1 (he ▸ h)
      simp [hxk, ih hnd'.2 h]

theorem sum_keys_filter (keys : List String) (f : Tx → ℚ) :
    ∀ l : List Tx, keys.Nodup → (∀ t ∈ l, t.category ∈ keys) →
      (keys.map (fun c => ((l.filter (fun t => t.category == c)).map f).sum)).sum =
        (l.map f).sum := by
  intro l
  induction l with
  | nil =>
    intro _ _
    simp only [List.filter_nil, List.map_nil, List.sum_nil]
    exact sum_map_zero_q keys
  | cons t rest ih =>
    intro hnd hcov
    have ht : t.category ∈ keys := hcov t (List.mem_cons_self _ _)
    have hcov' : ∀ s ∈ rest, s.category ∈ keys := fun s hs =>
      hcov s (List.mem_cons_of_mem _ hs)
    have hsplit : ∀ c : String,
        (((t :: rest).filter (fun s => s.category == c)).map f).sum =
          (if t.category = c then f t else 0) +
            ((rest.filter (fun s => s.category == c)).map f).sum := by
      intro c
      simp only [List.filter_cons]
      by_cases h : t.category = c
      · simp [h]
      · simp [h]
    have hfun : (fun c => (((t :: rest).filter (fun s => s.category == c)).map f).sum) =
        (fun c => (if t.category = c then f t else 0) +
          ((rest.filter (fun s => s.category == c)).map f).sum) := funext hsplit
    rw [hfun, sum_map_add_q keys _ _, sum_map_if_single keys t.category (f t) hnd ht,
      ih hnd hcov']
    simp

theorem bitLenAux_le (fuel : Nat) :
    ∀ (k n : Nat), n < 2 ^ k → k ≤ fuel → bitLenAux fuel n ≤ k := by
  induction fuel with
  | zero =>
    intro k n hn hk
    interval_cases k
    interval_cases n
    simp [bitLenAux]
  | succ fuel ih =>
    intro k n hn hk
    by_cases h0 : n = 0
    · simp [bitLenAux, h0]
    · cases k with
      | zero =>
        omega
      | succ k =>
        have h2 : 2 ^ (k + 1) = 2 * 2 ^ k := by ring
        have hdiv : n / 2 < 2 ^ k := by omega
        have := ih k (n / 2) hdiv (by omega)
        simp only [bitLenAux, h0, if_false]
        omega

theorem fpNorm_small (m : Int) (hm : 0 ≤ m) (hlt : m < 2 ^ 53) : fpNorm m 0 = ⟨m, 0⟩ := by
  by_cases h0 : m = 0
  · simp [fpNorm, h0]
  · have hna : m.natAbs < 2 ^ 53 := by omega
    have hb : bitLength m.natAbs ≤ 53 := bitLenAux_le 4096 53 m.natAbs hna (by norm_num)
    simp only [fpNorm, h0, if_false, bitLength] at *
    simp [hb]

theorem fpAdd_int (a b : Int) : fpAdd ⟨a, 0⟩ ⟨b, 0⟩ = fpNorm (a + b) 0 := by
  simp [fpAdd]

theorem foldl_fpAdd_exact (l : List Tx) : ∀ acc : Int,
    (∀ t ∈ l, t.amount.e = 0 ∧ 0 ≤ t.amount.m) → 0 ≤ acc →
    acc + (l.map (fun t => t.amount.m)).sum < 2 ^ 53 →
    l.foldl (fun acc t => fpAdd acc t.amount) ⟨acc, 0⟩ =
      ⟨acc + (l.map (fun t => t.amount.m)).sum, 0⟩ := by
  induction l with
  | nil =>
    intro acc _ _ _
    simp
  | cons t rest ih =>
    intro acc hint hacc hbound
    have ht := hint t (List.mem_cons_self _ _)
    have hrest : ∀ s ∈ rest, s.amount.e = 0 ∧ 0 ≤ s.amount.m := fun s hs =>
      hint s (List.mem_cons_of_mem _ hs)
    have hrestsum : 0 ≤ (rest.map (fun t => t.amount.m)).sum := by
      apply List.sum_nonneg
      intro x hx
      obtain ⟨s, hs, rfl⟩ := List.mem_map.mp hx
      exact (hrest s hs).2
    have hsum : ((t :: rest).map (fun t => t.amount.m)).sum =
        t.amount.m + (rest.map (fun t => t.amount.m)).sum := by simp
    rw [hsum] at hbound
    have hstep : fpAdd ⟨acc, 0⟩ t.amount = ⟨acc + t.amount.m, 0⟩ := by
      have hteta : t.amount = ⟨t.amount.m, 0⟩ := by
        cases hta : t.amount with
        | mk m e =>
          have : e = 0 := by rw [hta] at ht; exact ht.1
          simp [this]
      rw [hteta, fpAdd_int]
      exact fpNorm_small _ (by omega) (by omega)
    simp only [List.foldl_cons, hstep]
    rw [ih (acc + t.amount.m) hrest (by omega) (by omega), hsum]
    congr 1
    omega

theorem sublist_sum_le (l' l : List Int) (hs : l'.Sublist l) (h : ∀ x ∈ l, 0 ≤ x) :
    l'.sum ≤ l.sum := by
  induction hs with
  | slnil => exact le_refl _
  | cons a hsub ih =>
    have ha : 0 ≤ a := h a (List.mem_cons_self _ _)
    have hle := ih (fun x hx => h x (List.mem_cons_of_mem a hx))
    simp only [List.sum_cons]
    omega
  | cons₂ a hsub ih =>
    have hle := ih (fun x hx => h x (List.mem_cons_of_mem a hx))
    simp only [List.sum_cons]
    exact add_le_add_left hle a

theorem cast_list_sum (l : List Int) :
    ((l.sum : Int) : ℚ) = (l.map (fun x : Int => (x : ℚ))).sum := by
  induction l with
  | nil => simp
  | cons x t ih => simp [ih]

theorem toRat_int (m : Int) : toRat ⟨m, 0⟩ = (m : ℚ) := by simp [toRat]

theorem sumAmounts_exact (l : List Tx)
    (hint : ∀ t ∈ l, t.amount.e = 0 ∧ 0 ≤ t.amount.m)
    (hbound : (l.map (fun t => t.amount.m)).sum < 2 ^ 53) :
    sumAmounts l = ⟨(l.map (fun t => t.amount.m)).sum, 0⟩ := by
  unfold sumAmounts
  rw [foldl_fpAdd_exact l 0 hint (le_refl 0) (by omega)]
  simp

theorem toRat_sumAmounts (l : List Tx)
    (hint : ∀ t ∈ l, t.amount.e = 0 ∧ 0 ≤ t.amount.m)
    (hbound : (l.map (fun t => t.amount.m)).sum < 2 ^ 53) :
    toRat (sumAmounts l) = (l.map (fun t => ((t.amount.m : Int) : ℚ))).sum := by
  rw [sumAmounts_exact l hint hbound, toRat_int, cast_list_sum]
  rw [List.map_map]
  rfl

theorem categoryTotals_sum_exact (txs : List Tx) (fromISO toISO : String)
    (hint : ∀ t ∈ txs, t.amount.e = 0 ∧ 0 ≤ t.amount.m)
    (hbound : (txs.map (fun t => t.amount.m)).sum < 2 ^ 53) :
    ((getCategoryTotals txs fromISO toISO).map (fun p => toRat p.2)).sum =
      toRat (getTotal txs fromISO toISO) := by
  unfold getCategoryTotals getTotal
  set filtered := txs.filter (txInRange fromISO toISO) with hfil
  have hsubf : filtered.Sublist txs := List.filter_sublist _
  have hnn : ∀ x ∈ txs.map (fun t => t.amount.m), 0 ≤ x := by
    intro x hx
    obtain ⟨s, hs, rfl⟩ := List.mem_map.mp hx
    exact (hint s hs).2
  have hexact : ∀ l : List Tx, l.Sublist filtered →
      toRat (sumAmounts l) = (l.map (fun t => ((t.amount.m : Int) : ℚ))).sum := by
    intro l hsub
    have hsubt : l.Sublist txs := hsub.trans hsubf
    have hli : ∀ t ∈ l, t.amount.e = 0 ∧ 0 ≤ t.amount.m := fun t htm =>
      hint t (hsubt.subset htm)
    have hls : (l.map (fun t => t.amount.m)).sum ≤ (txs.map (fun t => t.amount.m)).sum :=
      sublist_sum_le _ _ (hsubt.map _) hnn
    exact toRat_sumAmounts l hli (by omega)
  set keys := (filtered.map Tx.category).dedup with hk
  set rows := keys.map
    (fun c => (c, sumAmounts (filtered.filter (fun t => t.category == c)))) with hr
  have hperm : (List.insertionSort (fun a b => fpLeb b.2 a.2 = true) rows).Perm rows :=
    List.perm_insertionSort _ _
  have h1 : ((List.insertionSort (fun a b => fpLeb b.2 a.2 = true) rows).map
      (fun p => toRat p.2)).sum = (rows.map (fun p => toRat p.2)).sum :=
    (hperm.map _).sum_eq
  rw [h1, hr, List.map_map]
  have h2 : ((fun p : String × F64 => toRat p.2) ∘ fun c =>
      (c, sumAmounts (filtered.filter (fun t => t.category == c)))) =
      fun c => ((filtered.filter (fun t => t.category == c)).map
        (fun t => ((t.amount.m : Int) : ℚ))).sum := by
    funext c
    exact hexact _ (List.filter_sublist _)
  rw [h2]
  rw [sum_keys_filter keys (fun t => ((t.amount.m : Int) : ℚ)) filtered
    (List.nodup_dedup _) ?hcov]
  case hcov =>
    intro t htm
    rw [hk]
    exact List.mem_dedup.mpr (List.mem_map_of_mem _ htm)
  exact (hexact filtered (List.Sublist.refl _)).symm

/-- C1 (amended): the per-category totals of `getCategoryTotals` sum to
`getTotal` whenever every binary64 addition the two aggregations perform is
exact — in particular for every transaction list whose amounts are
non-negative integer-valued doubles with total below `2 ^ 53`; and for every
transaction list and range, when no transaction falls in the range,
`getCategoryTotals` returns `[]` and `getTotal` returns `0`.  As stated
(for all stored `REAL` amounts) the claim is false: binary64 summation is
not associative, see `getCategoryTotals_float_counterexample`. -/
theorem getCategoryTotals_sum_eq_getTotal :
    (∀ (txs : List Tx) (fromISO toISO : String),
      (∀ t ∈ txs, t.amount.e = 0 ∧ 0 ≤ t.amount.m) →
      (txs.map (fun t => t.amount.m)).sum < 2 ^ 53 →
      ((getCategoryTotals txs fromISO toISO).map (fun p => toRat p.2)).sum =
        toRat (getTotal txs fromISO toISO)) ∧
    (∀ (txs : List Tx) (fromISO toISO : String),
      (∀ t ∈ txs, txInRange fromISO toISO t = false) →
      getCategoryTotals txs fromISO toISO = [] ∧
        toRat (getTotal txs fromISO toISO) = 0) := by
  constructor
  · exact categoryTotals_sum_exact
  · intro txs fromISO toISO h
    have hf : txs.filter (txInRange fromISO toISO) = [] :=
      List.filter_eq_nil_iff.mpr (fun a ha => by rw [h a ha]; simp)
    constructor
    · unfold getCategoryTotals
      rw [hf]
      rfl
    · unfold getTotal
      rw [hf]
      simp [sumAmounts, toRat]

/-- C1 counterexample: on the rows of `floatCounterexampleTxs` (amounts
`0.1` in category `"A"`, `0.2` and `0.3` in category `"B"`), SQLite sums
the whole range as `(0.1 + 0.2) + 0.3 = 0.6000000000000001` while the
category totals are `0.1` and `0.2 + 0.3 = 0.5`, which add up to values
summing to `0.6`: the per-category totals do not sum to `getTotal`. -/
theorem getCategoryTotals_float_counterexample :
    ¬ (((getCategoryTotals floatCounterexampleTxs "2024-03-01" "2024-04-01").map
          (fun p => toRat p.2)).sum =
        toRat (getTotal floatCounterexampleTxs "2024-03-01" "2024-04-01")) := by
  have h1 : getCategoryTotals floatCounterexampleTxs "2024-03-01" "2024-04-01" =
      [("B", ⟨4503599627370496, -53⟩), ("A", ⟨3602879701896397, -55⟩)] := by decide
  have h2 : getTotal floatCounterexampleTxs "2024-03-01" "2024-04-01" =
      ⟨5404319552844596, -53⟩ := by decide
  rw [h1, h2]
  norm_num [toRat]

theorem getCategoryTotals_sum_witness :
    ((∀ t ∈ exactWitnessTxs, t.amount.e = 0 ∧ 0 ≤ t.amount.m) ∧
      (exactWitnessTxs.map (fun t => t.amount.m)).sum < 2 ^ 53 ∧
      ((getCategoryTotals exactWitnessTxs "2024-03-01" "2024-04-01").map
        (fun p => toRat p.2)).sum =
        toRat (getTotal exactWitnessTxs "2024-03-01" "2024-04-01")) ∧
    ((∀ t ∈ exactWitnessTxs, txInRange "2025-01-01" "2025-02-01" t = false) ∧
      getCategoryTotals exactWitnessTxs "2025-01-01" "2025-02-01" = [] ∧
      toRat (getTotal exactWitnessTxs "2025-01-01" "2025-02-01") = 0) :=
  ⟨⟨by decide, by decide,
      getCategoryTotals_sum_eq_getTotal.1 exactWitnessTxs "2024-03-01" "2024-04-01"
        (by decide) (by decide)⟩,
    ⟨by decide,
      getCategoryTotals_sum_eq_getTotal.2 exactWitnessTxs "2025-01-01" "2025-02-01"
        (by decide)⟩⟩

/-! ### C4, C5, C10: date ranges -/

/-- C4: for reversed inputs (`end < start` as dates), `getRangeRange` is
symmetric in its arguments and returns the half-open interval
`[startOfDay(min), startOfDay(max) + 1 day)`. -/
theorem getRangeRange_symm :
    ∀ (start stop : JSDate),
      0 ≤ start.msec → start.msec < 86400000 → 0 ≤ stop.msec → stop.msec < 86400000 →
      tsOf stop < tsOf start →
      getRangeRange start stop = getRangeRange stop start ∧
      getRangeRange start stop =
        ⟨formatISODate (startOfDay stop), formatISODate (addDays (startOfDay start) 1)⟩ := by
  intro s e hs1 hs2 he1 he2 hlt
  have hday : e.day ≤ s.day := by
    unfold tsOf at hlt
    omega
  simp only [getRangeRange, startOfDay, addDays, tsOf]
  by_cases h : s.day ≤ e.day
  · have heq : s.day = e.day := le_antisymm h hday
    rw [heq]
    simp
  · have c1 : ¬ (s.day * 86400000 + 0 ≤ e.day * 86400000 + 0) := by omega
    have c2 : e.day * 86400000 + 0 ≤ s.day * 86400000 + 0 := by omega
    simp only [if_neg c1, if_pos c2]
    exact ⟨trivial, trivial⟩

theorem getRangeRange_symm_witness :
    getRangeRange ⟨19750, 3600000⟩ ⟨19723, 0⟩ = getRangeRange ⟨19723, 0⟩ ⟨19750, 3600000⟩ ∧
    getRangeRange ⟨19750, 3600000⟩ ⟨19723, 0⟩ =
      ⟨formatISODate (startOfDay ⟨19723, 0⟩),
       formatISODate (addDays (startOfDay ⟨19750, 3600000⟩) 1)⟩ :=
  getRangeRange_symm ⟨19750, 3600000⟩ ⟨19723, 0⟩ (by decide) (by decide) (by decide)
    (by decide) (by decide)

/-- C5: for every date, the week range's start falls on a Monday (computed
via `diffToMonday = dow == 0 ? -6 : 1 - dow`), and its end is exactly 7
calendar days after the start. -/
theorem getWeekRange_monday :
    ∀ d : JSDate,
      getDay (getStartOfWeekMonday d) = 1 ∧
      getWeekRange d = ⟨formatISODate (getStartOfWeekMonday d),
        formatISODate (addDays (getStartOfWeekMonday d) 7)⟩ := by
  intro d
  constructor
  · simp only [getDay, getStartOfWeekMonday, startOfDay, addDays]
    by_cases h : (d.day + 4) % 7 = 0
    · rw [if_pos h]
      omega
    · rw [if_neg h]
      omega
  · rfl

/-- C10: `getDateRange 'range'` produces the current day's window, identical
to `getDateRange 'day'`; every period other than 'week' and 'month' yields
`getDayRange now`. -/
theorem getDateRange_range_is_day :
    (∀ now : JSDate, getDateRange .range now = getDateRange .day now) ∧
    (∀ (p : AnalyticsPeriod) (now : JSDate), p ≠ .week → p ≠ .month →
      getDateRange p now = getDayRange now) := by
  constructor
  · intro now
    rfl
  · intro p now hw hm
    cases p
    · rfl
    · exact absurd rfl hw
    · exact absurd rfl hm
    · rfl

theorem getDateRange_range_witness :
    getDateRange .range ⟨20000, 0⟩ = getDayRange ⟨20000, 0⟩ :=
  getDateRange_range_is_day.2 .range ⟨20000, 0⟩ (by decide) (by decide)

/-! ### C6, C7: money formatting -/

theorem jsRound_intCast (m : ℤ) : jsRound (m : ℚ) = m := by
  unfold jsRound
  rw [Rat.num_intCast, Rat.den_intCast]
  rw [Int.fdiv_eq_ediv _ (by norm_num)]
  push_cast
  omega

/-- C6: `formatMoney` treats non-finite amounts as zero, falls back to the
default currency for unknown or missing codes, renders the currency symbol
prefixed to the 2-decimal en-US formatting of the amount, and in particular
maps `(1234.5, "USD")` to `"$1,234.50"` and `(NaN, "EUR")` to `"€0.00"`. -/
theorem formatMoney_spec :
    (∀ (a : JSNum) (c : Option String), isFiniteJS a = false →
      formatMoney a c = formatMoney (.finite 0) c) ∧
    (∀ (a : JSNum) (s : String), s ∉ SUPPORTED_CURRENCIES →
      formatMoney a (some s) = formatMoney a (some "EUR")) ∧
    (∀ a : JSNum, formatMoney a none = formatMoney a (some "EUR")) ∧
    (∀ (q : ℚ) (c : Option String),
      formatMoney (.finite q) c =
        getCurrencySymbol (toCurrencyCode c) ++ formatNumberEnUS2 q) ∧
    formatMoney (.finite (2469 / 2)) (some "USD") = "$1,234.50" ∧
    formatMoney .nan (some "EUR") = "€0.00" := by
  refine ⟨?_, ?_, ?_, ?_, ?_, ?_⟩
  · intro a c h
    cases a with
    | finite q => simp [isFiniteJS] at h
    | nan => rfl
    | inf => rfl
    | negInf => rfl
  · intro a s hs
    have h1 : toCurrencyCode (some s) = "EUR" := by
      simp [toCurrencyCode, hs]
    have h2 : toCurrencyCode (some "EUR") = "EUR" := by decide
    simp only [formatMoney, h1, h2]
  · intro a
    have h1 : toCurrencyCode none = "EUR" := rfl
    have h2 : toCurrencyCode (some "EUR") = "EUR" := by decide
    simp only [formatMoney, h1, h2]
  · intro q c
    rfl
  · have e : |((2469 : ℚ) / 2)| * 100 = ((123450 : ℤ) : ℚ) := by
      rw [abs_of_nonneg (by norm_num : (0 : ℚ) ≤ 2469 / 2)]
      norm_num
    have hneg : ¬ ((2469 : ℚ) / 2 < 0) := by norm_num
    simp only [formatMoney, formatNumberEnUS2]
    rw [e, jsRound_intCast, if_neg hneg]
    decide
  · have e : |(0 : ℚ)| * 100 = ((0 : ℤ) : ℚ) := by norm_num
    have hneg : ¬ ((0 : ℚ) < 0) := by norm_num
    simp only [formatMoney, formatNumberEnUS2]
    rw [e, jsRound_intCast, if_neg hneg]
    decide

theorem formatMoney_witness :
    formatMoney .inf (some "GBP") = formatMoney (.finite 0) (some "GBP") ∧
    formatMoney (.finite 0) (some "XYZ") = formatMoney (.finite 0) (some "EUR") ∧
    formatMoney (.finite 0) none = formatMoney (.finite 0) (some "EUR") :=
  ⟨formatMoney_spec.1 .inf (some "GBP") (by decide),
   formatMoney_spec.2.1 (.finite 0) "XYZ" (by decide),
   formatMoney_spec.2.2.1 (.finite 0)⟩

theorem toFixed1_intCast (m : ℤ) : toFixed1 (m : ℚ) = toString m ++ "." ++ "0" := by
  unfold toFixed1
  rw [show ((m : ℚ) * 10) = ((10 * m : ℤ) : ℚ) by push_cast; ring, jsRound_intCast]
  have h1 : (10 * m).fdiv 10 = m := by
    rw [Int.fdiv_eq_ediv _ (by norm_num)]
    omega
  have h2 : (10 * m).fmod 10 = 0 := by
    rw [Int.fmod_eq_emod _ (by norm_num)]
    omega
  simp only [h1, h2]
  rfl

theorem stripDot0_dot0 (t : String) : stripDot0 (t ++ ".0") = t := by
  cases t with
  | mk l =>
    show stripDot0 ⟨l ++ ['.', '0']⟩ = ⟨l⟩
    unfold stripDot0
    simp

theorem stripDot0_toFixed1_int (m : ℤ) : stripDot0 (toFixed1 (m : ℚ)) = toString m := by
  rw [toFixed1_intCast, strAppend_assoc]
  rw [show ("." : String) ++ "0" = ".0" from rfl, stripDot0_dot0]

theorem display_int_of_den_one (rv : ℚ) (h : rv.den = 1) :
    toString rv.num = stripDot0 (toFixed1 rv) := by
  have hrv : rv = (rv.num : ℚ) := by
    conv_lhs => rw [← Rat.num_div_den rv, h]
    simp
  calc toString rv.num = stripDot0 (toFixed1 ((rv.num : ℚ))) :=
        (stripDot0_toFixed1_int rv.num).symm
    _ = stripDot0 (toFixed1 rv) := by rw [← hrv]

theorem toFixed1_div10 (k : ℤ) :
    toFixed1 ((k : ℚ) / 10) = toString (k.fdiv 10) ++ "." ++ toString (k.fmod 10) := by
  unfold toFixed1
  rw [div_mul_cancel₀ _ (by norm_num : (10 : ℚ) ≠ 0), jsRound_intCast]

theorem formatCompact_eval_small (q : ℚ) (c : String) (d : ℚ) (sfx : String) (k : ℤ)
    (h1 : ¬ |q| < 1000)
    (hpair : (if |q| ≥ 1000000000 then ((1000000000 : ℚ), ("B" : String))
        else if |q| ≥ 1000000 then ((1000000 : ℚ), "M") else ((1000 : ℚ), "K")) = (d, sfx))
    (h100 : ¬ |q| / d ≥ 100)
    (hk : jsRound (|q| / d * 10) = k) :
    formatCompactCurrency (.finite q) c =
      (if q < 0 then "-" else "") ++ getCurrencySymbol c ++
        (if ((k : ℚ) / 10).den = 1 then toString ((k : ℚ) / 10).num
         else stripDot0 (toFixed1 ((k : ℚ) / 10))) ++ sfx := by
  unfold formatCompactCurrency
  rw [if_neg h1, hpair]
  dsimp only
  rw [if_neg h100, hk]

/-- C7: for amounts of magnitude at least 1000, `formatCompactCurrency`
computes exactly the algorithm the specification describes (scale by
K/M/B by magnitude, round to 1 decimal below 100 and to a whole number at or
above 100, strip a trailing ".0", keep a leading "-"); in particular 1500
formats as "1.5K", 1000000 as "1M", and negatives gain exactly a leading
"-". -/
theorem formatCompactCurrency_spec :
    (∀ (q : ℚ) (c : String), 1000 ≤ |q| →
      formatCompactCurrency (.finite q) c = formatCompactCurrencySpec q c) ∧
    (∀ (q : ℚ) (c : String), 1000 ≤ q →
      formatCompactCurrency (.finite (-q)) c = "-" ++ formatCompactCurrency (.finite q) c) ∧
    formatCompactCurrency (.finite 1500) "EUR" = "€1.5K" ∧
    formatCompactCurrency (.finite 1000000) "EUR" = "€1M" := by
  refine ⟨?_, ?_, ?_, ?_⟩
  · intro q c h
    have hnotlt : ¬ (|q| < 1000) := not_lt.mpr h
    unfold formatCompactCurrency formatCompactCurrencySpec
    rw [if_neg hnotlt]
    dsimp only
    set P := (if |q| ≥ 1000000000 then ((1000000000 : ℚ), ("B" : String))
      else if |q| ≥ 1000000 then ((1000000 : ℚ), "M") else ((1000 : ℚ), "K")) with hP
    by_cases h100 : |q| / P.1 ≥ 100
    · rw [if_pos h100, if_neg (not_lt.mpr h100),
        if_pos (Rat.den_intCast (jsRound (|q| / P.1))),
        display_int_of_den_one ((jsRound (|q| / P.1) : ℚ)) (Rat.den_intCast _)]
    · rw [if_neg h100, if_pos (lt_of_not_ge h100)]
      by_cases hden : (((jsRound (|q| / P.1 * 10) : ℤ) : ℚ) / 10).den = 1
      · rw [if_pos hden, display_int_of_den_one _ hden]
      · rw [if_neg hden]
  · intro q c h
    have h0 : (0 : ℚ) < q := lt_of_lt_of_le (by norm_num) h
    unfold formatCompactCurrency
    dsimp only
    rw [abs_neg, abs_of_nonneg h0.le]
    have hnlt : ¬ (q < 1000) := not_lt.mpr h
    rw [if_neg hnlt, if_neg hnlt, if_pos (neg_lt_zero.mpr h0), if_neg (not_lt.mpr h0.le)]
    simp [strAppend_assoc, strEmpty_append]
  · have habs : |(1500 : ℚ)| = 1500 := by decide
    have hk : jsRound (|(1500 : ℚ)| / 1000 * 10) = 15 := by
      rw [habs, (by norm_num : (1500 : ℚ) / 1000 * 10 = ((15 : ℤ) : ℚ)), jsRound_intCast]
    rw [formatCompact_eval_small 1500 "EUR" 1000 "K" 15
      (by rw [habs]; norm_num) (by rw [habs]; norm_num) (by rw [habs]; norm_num) hk]
    rw [if_neg (by norm_num : ¬ (1500 : ℚ) < 0),
      if_neg (by norm_num : ¬ (((15 : ℤ) : ℚ) / 10).den = 1), toFixed1_div10]
    decide
  · have habs : |(1000000 : ℚ)| = 1000000 := by decide
    have hk : jsRound (|(1000000 : ℚ)| / 1000000 * 10) = 10 := by
      rw [habs, (by norm_num : (1000000 : ℚ) / 1000000 * 10 = ((10 : ℤ) : ℚ)), jsRound_intCast]
    rw [formatCompact_eval_small 1000000 "EUR" 1000000 "M" 10
      (by rw [habs]; norm_num) (by rw [habs]; norm_num) (by rw [habs]; norm_num) hk]
    rw [if_pos (by norm_num : (((10 : ℤ) : ℚ) / 10).den = 1),
      (by norm_num : (((10 : ℤ) : ℚ) / 10).num = 1)]
    rw [if_neg (by norm_num : ¬ (1000000 : ℚ) < 0)]
    decide

theorem formatCompactCurrency_witness :
    formatCompactCurrency (.finite (-2500)) "USD" = formatCompactCurrencySpec (-2500) "USD" ∧
    formatCompactCurrency (.finite (-(1200 : ℚ))) "GBP" =
      "-" ++ formatCompactCurrency (.finite 1200) "GBP" :=
  ⟨formatCompactCurrency_spec.1 (-2500) "USD" (by decide),
   formatCompactCurrency_spec.2.1 1200 "GBP" (by decide)⟩

/-! ### C8: monthly budget setting -/

/-- C8: `setMonthlyBudgetSetting` stores the empty-string sentinel for
`null` and clamps negative or non-finite amounts to 0 before storing their
string encoding; `getMonthlyBudgetSetting` returns `null` when the stored
value is absent, empty, or parses to a non-finite or negative number, and
otherwise returns the parsed non-negative number. -/
theorem monthlyBudgetSetting_spec :
    setMonthlyBudgetSetting none = "" ∧
    (∀ q : ℚ, 0 ≤ q → setMonthlyBudgetSetting (some (.finite q)) = jsNumToString q) ∧
    (∀ a : JSNum, (∀ q : ℚ, a = .finite q → q < 0) →
      setMonthlyBudgetSetting (some a) = "0") ∧
    getMonthlyBudgetSetting none = none ∧
    getMonthlyBudgetSetting (some "") = none ∧
    (∀ s : String, s ≠ "" → (∀ q : ℚ, jsStringToNumber s = .finite q → q < 0) →
      getMonthlyBudgetSetting (some s) = none) ∧
    (∀ (s : String) (q : ℚ), s ≠ "" → jsStringToNumber s = .finite q → 0 ≤ q →
      getMonthlyBudgetSetting (some s) = some q) := by
  refine ⟨rfl, ?_, ?_, rfl, rfl, ?_, ?_⟩
  · intro q hq
    show jsNumToString (if 0 ≤ q then q else 0) = jsNumToString q
    rw [if_pos hq]
  · intro a ha
    cases a with
    | finite q =>
      have hq : q < 0 := ha q rfl
      show jsNumToString (if 0 ≤ q then q else 0) = "0"
      rw [if_neg (not_le.mpr hq)]
      decide
    | nan => decide
    | inf => decide
    | negInf => decide
  · intro s hs hneg
    unfold getMonthlyBudgetSetting
    dsimp only
    rw [if_neg hs]
    cases hj : jsStringToNumber s with
    | finite q =>
      have hq : q < 0 := hneg q hj
      show (if q < 0 then none else some q) = none
      rw [if_pos hq]
    | nan => rfl
    | inf => rfl
    | negInf => rfl
  · intro s q hs hj h0
    unfold getMonthlyBudgetSetting
    dsimp only
    rw [if_neg hs, hj]
    show (if q < 0 then none else some q) = some q
    rw [if_neg (not_lt.mpr h0)]

theorem monthlyBudgetSetting_witness :
    setMonthlyBudgetSetting (some (.finite 7)) = jsNumToString 7 ∧
    setMonthlyBudgetSetting (some .nan) = "0" ∧
    getMonthlyBudgetSetting (some "-5") = none ∧
    getMonthlyBudgetSetting (some "120") = some 120 :=
  ⟨monthlyBudgetSetting_spec.2.1 7 (by decide),
   monthlyBudgetSetting_spec.2.2.1 .nan (fun _ h => JSNum.noConfusion h),
   monthlyBudgetSetting_spec.2.2.2.2.2.1 "-5" (by decide) (fun q h => by
     rw [show jsStringToNumber "-5" = .finite (-5) from by decide] at h
     injection h with h2
     rw [← h2]
     decide),
   monthlyBudgetSetting_spec.2.2.2.2.2.2 "120" 120 (by decide) (by decide) (by decide)⟩

/-! ### C9: getRecentCategories never raises -/

/-- C9: `getRecentCategories` is total: an absent value, invalid JSON, or a
non-array parse yields `[]`; a parsed array of strings yields the entries
normalized, empties dropped, case-insensitive duplicates removed keeping the
first occurrence, truncated to at most 5. -/
theorem getRecentCategories_robust :
    getRecentCategoriesStored none = [] ∧
    (∀ s : String, jsonParse s = none → getRecentCategoriesStored (some s) = []) ∧
    (∀ (s : String) (v : JSValue), jsonParse s = some v → (∀ elems, v ≠ .jarr elems) →
      getRecentCategoriesStored (some s) = []) ∧
    (∀ (s : String) (elems : List JSValue) (strs : List String),
      jsonParse s = some (.jarr elems) → asStringArray elems = some strs →
      getRecentCategoriesStored (some s) =
        (dedupeCaseInsensitive strs).take MAX_RECENT_CATEGORIES) := by
  have hempty : jsonParse "" = none := rfl
  refine ⟨rfl, ?_, ?_, ?_⟩
  · intro s hp
    unfold getRecentCategoriesStored
    dsimp only
    by_cases hs : s = ""
    · rw [if_pos hs]
    · rw [if_neg hs, hp]
  · intro s v hp hv
    unfold getRecentCategoriesStored
    dsimp only
    by_cases hs : s = ""
    · rw [if_pos hs]
    · rw [if_neg hs, hp]
      cases v with
      | jarr elems => exact absurd rfl (hv elems)
      | jnull => rfl
      | jbool b => rfl
      | jnum raw => rfl
      | jstr s2 => rfl
      | jobj fields => rfl
  · intro s elems strs hp hstr
    unfold getRecentCategoriesStored
    dsimp only
    have hs : s ≠ "" := by
      intro he
      rw [he, hempty] at hp
      exact Option.noConfusion hp
    rw [if_neg hs, hp]
    dsimp only
    rw [hstr]

theorem getRecentCategories_witness :
    getRecentCategoriesStored (some "not json") = [] ∧
    getRecentCategoriesStored (some "42") = [] ∧
    getRecentCategoriesStored (some "[\" My  Shop \",\"my shop\",\"B\"]") =
      (dedupeCaseInsensitive [" My  Shop ", "my shop", "B"]).take MAX_RECENT_CATEGORIES :=
  ⟨getRecentCategories_robust.2.1 "not json" rfl,
   getRecentCategories_robust.2.2.1 "42" (.jnum "42") rfl
     (fun _ h => JSValue.noConfusion h),
   getRecentCategories_robust.2.2.2 "[\" My  Shop \",\"my shop\",\"B\"]"
     [.jstr " My  Shop ", .jstr "my shop", .jstr "B"]
     [" My  Shop ", "my shop", "B"] rfl rfl⟩
